import Mathlib

/-!
Verification of the hydrological core of the Terrain-Generator repository.

The definitions below are a shallow embedding of `src/terrain_generator/src/erosion.rs`
and `src/terrain_generator/src/lakes.rs`.  Heights are modelled as exact rationals
(the erosion kernel, which uses a logarithm, is modelled over the reals).  Per-cell
arrays become `List` values indexed with `getD`; the `BinaryHeap` of shore points
becomes a list from which the maximal element under the reversed ordering is popped.
-/

namespace TerrainGen

/-! ## Flux router: `get_flux` in erosion.rs

`get_flux(heights, adjacent)` zero-initialises the flux array, sorts cell indices by
height ascending and then iterates in reverse (descending).  For each cell it finds
the lowest strictly-lower neighbour and, if one exists, adds `flux[k] + 1` to it. -/

/-- One iteration of the `lowest` selection loop of `get_flux`. -/
def downhillStep (heights : List ℚ) (height : ℚ) (lowest : Option ℕ) (n : ℕ) :
    Option ℕ :=
  if heights.getD n 0 < height then
    match lowest with
    | some low => if heights.getD n 0 < heights.getD low 0 then some n else some low
    | none => some n
  else lowest

/-- The `lowest` selection loop of `get_flux`: the first strictly-lower neighbour of
minimal height, traversing the adjacency list in order (ties keep the earlier one). -/
def downhill (heights : List ℚ) (adjList : List ℕ) (height : ℚ) : Option ℕ :=
  adjList.foldl (downhillStep heights height) none

/-- One iteration of the main loop of `get_flux`, processing cell `k`. -/
def fluxStep (heights : List ℚ) (adjacent : List (List ℕ)) (flux : List ℚ) (k : ℕ) :
    List ℚ :=
  match downhill heights (adjacent.getD k []) (heights.getD k 0) with
  | some nb => flux.set nb (flux.getD nb 0 + flux.getD k 0 + 1)
  | none => flux

/-- Cell indices sorted by height ascending and then reversed, as in `get_flux`. -/
def descendingOrder (heights : List ℚ) : List ℕ :=
  ((heights.enum.insertionSort (fun a b => a.2 ≤ b.2)).reverse).map Prod.fst

/-- `get_flux` from erosion.rs: the flux field after processing all cells in
descending height order. -/
def getFlux (heights : List ℚ) (adjacent : List (List ℕ)) : List ℚ :=
  (descendingOrder heights).foldl (fluxStep heights adjacent)
    (List.replicate heights.length 0)

/-! ## Smoothing: `smooth` in erosion.rs

The pass iterates over a snapshot of the initial heights.  For cell `i` it forms the
mean of the snapshot height of `i` and the *current* heights of its neighbours, then
blends both `i` and every neighbour toward that mean, in place. -/

/-- The blend factor of `smooth`. -/
def smoothAlpha : ℚ := 33 / 50

/-- The body of the `smooth` loop for one cell: `p.1` is the cell index and `p.2` its
height in the pre-pass snapshot. -/
def smoothVisit (adjacent : List (List ℕ)) (cur : List ℚ) (p : ℕ × ℚ) : List ℚ :=
  let adjList := adjacent.getD p.1 []
  let mean := ((adjList.map fun n => cur.getD n 0).sum + p.2) / (adjList.length + 1)
  let cur1 := cur.set p.1 (p.2 * (1 - smoothAlpha) + mean * smoothAlpha)
  adjList.foldl
    (fun c n => c.set n (c.getD n 0 * (1 - smoothAlpha) + mean * smoothAlpha)) cur1

/-- `smooth` from erosion.rs, folding the per-cell visit over the snapshot. -/
def smooth (heights : List ℚ) (adjacent : List (List ℕ)) : List ℚ :=
  heights.enum.foldl (smoothVisit adjacent) heights

/-! ## Erosion kernel: the closure inside `erode` in erosion.rs

Modelled over the reals because of the logarithm.  The fold
`adjacent[i].iter().cloned().fold(0./0., f64::min).min(height)` computes the minimum
of the neighbour heights and the cell height (the NaN seed is absorbed by the first
comparison), which over ℝ is `nbrHeights.foldr min height`. -/

/-- The erosion rate constant. -/
noncomputable def erosionRate : ℝ := 0.015

/-- The land-branch blend factor of the erosion kernel. -/
noncomputable def erodeAlpha : ℝ := 0.125

/-- The per-cell erosion closure of `erode`: given the sea level, the cell's flux and
(post-smoothing) height and the snapshot of its neighbours' heights. -/
noncomputable def erodePoint (seaLevel flux height : ℝ) (nbrHeights : List ℝ) : ℝ :=
  let pointFlux := Real.log (flux + 1)
  let er := pointFlux * erosionRate * height
  if seaLevel ≤ height then
    let low := nbrHeights.foldr min height
    let eroded := height - er
    max low eroded * (1 - erodeAlpha) + eroded * erodeAlpha
  else
    height - er * 0.25

/-- The map applied by `erode` once the smoothed heights and the flux are fixed:
cell `i` is rewritten using its flux and the pre-update neighbour heights. -/
noncomputable def erodeField (seaLevel : ℝ) (flux heights : List ℝ)
    (adjacent : List (List ℕ)) : List ℝ :=
  heights.enum.map fun p =>
    erodePoint seaLevel (flux.getD p.1 0) p.2
      ((adjacent.getD p.1 []).map fun n => heights.getD n 0)

/-! ## Lake generation: lakes.rs

`LakeShorePoint` ordering is reversed for use in the max-heap, so popping yields the
entry of minimal height, ties broken towards the larger id.  The heap is modelled as
a plain list; `popBest` selects the element that `BinaryHeap::pop` would return, and
the subsequent dedup loop removes every remaining copy of it. -/

/-- A shore point of a growing lake: a cell id together with its height. -/
structure ShorePoint where
  id : ℕ
  height : ℚ
deriving DecidableEq, Repr

/-- `a` is popped before `b`: lower height first, equal heights larger id first
(the reversed ordering of lakes.rs turns the max-heap into a min-by-height heap). -/
def shoreBefore (a b : ShorePoint) : Prop :=
  a.height < b.height ∨ (a.height = b.height ∧ b.id < a.id)

instance : DecidableRel shoreBefore := by
  intro a b
  unfold shoreBefore
  infer_instance

/-- The element `BinaryHeap::pop` returns: the maximum under the reversed order. -/
def popBest : List ShorePoint → Option ShorePoint
  | [] => none
  | x :: xs => some (xs.foldl (fun best y => if shoreBefore y best then y else best) x)

/-- The internal lake bookkeeping record of lakes.rs. -/
structure LakeBuilder where
  water_level : ℚ
  area : ℕ
  highest_shore_point : ℕ
  shores : List ShorePoint
deriving DecidableEq, Repr

instance : Inhabited LakeBuilder :=
  ⟨⟨0, 0, 0, []⟩⟩

/-- The published lake record of lakes.rs. -/
structure Lake where
  water_level : ℚ
  area : ℕ
  highest_shore_point : ℕ
  inflow_flux : ℚ
deriving DecidableEq, Repr

/-- `merge_lakes` from lakes.rs: take the dissolved builder (leaving a default in its
slot), move its shore points into the keeper's heap, remap every association equal to
`otherId` to `lakeId`, and add `area - 1` to the keeper's area. -/
def mergeLakes (lakeId otherId : ℕ) (builders : List LakeBuilder)
    (assoc : List (Option ℕ)) : List LakeBuilder × List (Option ℕ) :=
  let other := builders.getD otherId default
  let builders1 := builders.set otherId default
  let keeper := builders1.getD lakeId default
  let builders2 := builders1.set lakeId
    { keeper with
      shores := keeper.shores ++ other.shores
      area := keeper.area + (other.area - 1) }
  let assoc1 := assoc.map fun o => if o = some otherId then some lakeId else o
  (builders2, assoc1)

/-- Remove the popped shore point and all its duplicates from the lake's heap
(the pop followed by the dedup loop in `expand_lake`). -/
def removePopped (lakeId : ℕ) (s : ShorePoint) (builders : List LakeBuilder) :
    List LakeBuilder :=
  builders.set lakeId
    { builders.getD lakeId default with
      shores := (builders.getD lakeId default).shores.filter (· ≠ s) }

/-- The merge dispatch of `expand_lake`: if the popped cell already belongs to a
lake, merge that lake into the expanding one. -/
def mergeStep (lakeId : ℕ) (s : ShorePoint) (builders : List LakeBuilder)
    (assoc : List (Option ℕ)) : List LakeBuilder × List (Option ℕ) :=
  match assoc.getD s.id none with
  | some otherId => mergeLakes lakeId otherId builders assoc
  | none => (builders, assoc)

/-- The commit in `expand_lake`: record the popped point's height as the water
level, bump the area, and make it the highest shore point. -/
def commitBuilder (lakeId : ℕ) (s : ShorePoint) (builders : List LakeBuilder) :
    List LakeBuilder :=
  builders.set lakeId
    { builders.getD lakeId default with
      water_level := s.height
      area := (builders.getD lakeId default).area + 1
      highest_shore_point := s.id }

/-- The continuation test of `expand_lake`: every neighbour of the committed point
is at least as high or already in the lake, and the point is not on the border. -/
def canContinue (heights : List ℚ) (adjacent : List (List ℕ)) (border : List Bool)
    (lakeId : ℕ) (s : ShorePoint) (assoc : List (Option ℕ)) : Prop :=
  (∀ n ∈ adjacent.getD s.id [],
    s.height ≤ heights.getD n 0 ∨ assoc.getD n none = some lakeId) ∧
  ¬ border.getD s.id false = true

instance canContinue.dec (heights : List ℚ) (adjacent : List (List ℕ))
    (border : List Bool) (lakeId : ℕ) (s : ShorePoint) (assoc : List (Option ℕ)) :
    Decidable (canContinue heights adjacent border lakeId s assoc) := by
  unfold canContinue
  infer_instance

/-- The shore points pushed after a successful continuation test: every neighbour of
the committed point not already associated with the lake. -/
def pushList (heights : List ℚ) (adjacent : List (List ℕ)) (lakeId : ℕ)
    (s : ShorePoint) (assoc : List (Option ℕ)) : List ShorePoint :=
  (adjacent.getD s.id []).filterMap fun n =>
    if assoc.getD n none = some lakeId then none
    else some ⟨n, heights.getD n 0⟩

/-- Append freshly pushed shore points to the lake's heap. -/
def addPushes (lakeId : ℕ) (pushes : List ShorePoint) (builders : List LakeBuilder) :
    List LakeBuilder :=
  builders.set lakeId
    { builders.getD lakeId default with
      shores := (builders.getD lakeId default).shores ++ pushes }

/-- The merge-and-commit part of one `expand_lake` iteration, after the popped point
and its duplicates have been removed from the heap. -/
def stepState (lakeId : ℕ) (s : ShorePoint) (builders : List LakeBuilder)
    (assoc : List (Option ℕ)) : List LakeBuilder × List (Option ℕ) :=
  let st1 := mergeStep lakeId s (removePopped lakeId s builders) assoc
  (commitBuilder lakeId s st1.1, st1.2.set s.id (some lakeId))

/-- `expand_lake` from lakes.rs, with explicit fuel.  `none` models a panic (pop on
an empty heap) or fuel exhaustion; the real recursion performs at most finitely many
steps, and every theorem below is conditioned on successful completion.

One step: pop the best shore point, drop its remaining duplicates, merge if the
popped cell already belongs to a lake, commit it (water level, area, highest shore
point, association), and recurse when every neighbour is at least as high or already
in the lake and the cell is not on the map border. -/
def expandLake (heights : List ℚ) (adjacent : List (List ℕ)) (border : List Bool) :
    ℕ → ℕ → List LakeBuilder → List (Option ℕ) →
      Option (List LakeBuilder × List (Option ℕ))
  | 0, _, _, _ => none
  | fuel + 1, lakeId, builders, assoc =>
    match popBest (builders.getD lakeId default).shores with
    | none => none
    | some s =>
      let st2 := stepState lakeId s builders assoc
      if canContinue heights adjacent border lakeId s st2.2 then
        expandLake heights adjacent border fuel lakeId
          (addPushes lakeId (pushList heights adjacent lakeId s st2.2) st2.1) st2.2
      else
        some st2

/-- The seeding loop body of `generate_lakes`: seed a new lake at every cell that is
above sea level, unassociated, and strictly below all its neighbours, then expand it. -/
def seedStep (heights : List ℚ) (adjacent : List (List ℕ)) (border : List Bool)
    (seaLevel : ℚ) (st : Option (List LakeBuilder × List (Option ℕ))) (p : ℕ × ℚ) :
    Option (List LakeBuilder × List (Option ℕ)) :=
  st.bind fun st0 =>
    if seaLevel < p.2 ∧ st0.2.getD p.1 none = none ∧
        ∀ n ∈ adjacent.getD p.1 [], p.2 < heights.getD n 0 then
      let shores := (adjacent.getD p.1 []).map fun n => (⟨n, heights.getD n 0⟩ : ShorePoint)
      let builders := st0.1 ++ [⟨p.2, 1, p.1, shores⟩]
      let lakeId := builders.length - 1
      let assoc := st0.2.set p.1 (some lakeId)
      expandLake heights adjacent border (heights.length * heights.length + 2 * heights.length + 2)
        lakeId builders assoc
    else
      some st0

/-- The builder phase of `generate_lakes` from lakes.rs: the final lake builders and
the cell-to-lake association map. -/
def generateLakesBuilders (heights : List ℚ) (adjacent : List (List ℕ))
    (border : List Bool) (seaLevel : ℚ) :
    Option (List LakeBuilder × List (Option ℕ)) :=
  heights.enum.foldl (seedStep heights adjacent border seaLevel)
    (some ([], List.replicate heights.length none))

/-- Publication in `generate_lakes`: `lake_associations.iter().flatten()` keeps only
the `Some` entries, so one `Lake` is emitted per associated cell, in cell order. -/
def publishLakes (builders : List LakeBuilder) (assoc : List (Option ℕ)) :
    Option (List Lake) :=
  (assoc.filterMap id).mapM fun k =>
    (builders.get? k).map fun b =>
      ({ water_level := b.water_level, area := b.area,
         highest_shore_point := b.highest_shore_point, inflow_flux := 0 } : Lake)

/-- `generate_lakes` from lakes.rs: builders plus publication. -/
def generateLakes (heights : List ℚ) (adjacent : List (List ℕ)) (border : List Bool)
    (seaLevel : ℚ) : Option (List Lake × List (Option ℕ)) :=
  (generateLakesBuilders heights adjacent border seaLevel).bind fun st =>
    (publishLakes st.1 st.2).map fun lakes => (lakes, st.2)

/-! ## Invariant predicates for the lake builder -/

/-- Every stored shore point records the true height of an in-range cell strictly
above sea level. -/
def ShoresOk (heights : List ℚ) (seaLevel : ℚ) (builders : List LakeBuilder) : Prop :=
  ∀ b ∈ builders, ∀ e ∈ b.shores,
    e.height = heights.getD e.id 0 ∧ seaLevel < e.height ∧ e.id < heights.length

/-- Every associated cell lies strictly above sea level. -/
def AssocSea (heights : List ℚ) (seaLevel : ℚ) (assoc : List (Option ℕ)) : Prop :=
  ∀ i k, assoc.getD i none = some k → seaLevel < heights.getD i 0

/-- Every association points at an existing builder slot. -/
def AssocLt (builders : List LakeBuilder) (assoc : List (Option ℕ)) : Prop :=
  ∀ i k, assoc.getD i none = some k → k < builders.length

/-- Every builder slot's recorded area equals its number of associated cells. -/
def AreaCount (builders : List LakeBuilder) (assoc : List (Option ℕ)) : Prop :=
  ∀ k, (builders.getD k default).area = assoc.countP fun o => decide (o = some k)

/-- The spill-point property of a finished lake `k`: its highest shore point's
height is the water level, and the point either has a strictly lower neighbour
outside the lake or itself lies on the map border. -/
def HspProp (heights : List ℚ) (adjacent : List (List ℕ)) (border : List Bool)
    (k : ℕ) (builders : List LakeBuilder) (assoc : List (Option ℕ)) : Prop :=
  heights.getD (builders.getD k default).highest_shore_point 0 =
    (builders.getD k default).water_level ∧
  ((∃ n ∈ adjacent.getD (builders.getD k default).highest_shore_point [],
      heights.getD n 0 < (builders.getD k default).water_level ∧
        assoc.getD n none ≠ some k) ∨
    border.getD (builders.getD k default).highest_shore_point false = true)

/-- All lakes in the image of the association map, except a possibly active one,
satisfy the spill-point property. -/
def Settled (heights : List ℚ) (adjacent : List (List ℕ)) (border : List Bool)
    (active : Option ℕ) (builders : List LakeBuilder)
    (assoc : List (Option ℕ)) : Prop :=
  ∀ k, some k ≠ active → (∃ i, assoc.getD i none = some k) →
    HspProp heights adjacent border k builders assoc

/-- Some builder slot is dead: no cell points at it any more.  This happens exactly
when some merge has dissolved a lake. -/
def Dead (builders : List LakeBuilder) (assoc : List (Option ℕ)) : Prop :=
  ∃ k, k < builders.length ∧ ∀ i, assoc.getD i none ≠ some k

/-- Heap entries of each lake sit at or above its water level, members at or below
it. -/
def WaterBounds (heights : List ℚ) (builders : List LakeBuilder)
    (assoc : List (Option ℕ)) : Prop :=
  (∀ k, ∀ e ∈ (builders.getD k default).shores,
    (builders.getD k default).water_level ≤ e.height) ∧
  (∀ i k, assoc.getD i none = some k →
    heights.getD i 0 ≤ (builders.getD k default).water_level)

/-- No heap entry of a lake refers to one of the lake's own member cells. -/
def NoStale (builders : List LakeBuilder) (assoc : List (Option ℕ)) : Prop :=
  ∀ k, ∀ e ∈ (builders.getD k default).shores, assoc.getD e.id none ≠ some k

/-- The master invariant of the lake builder state. -/
structure Inv (heights : List ℚ) (adjacent : List (List ℕ)) (border : List Bool)
    (seaLevel : ℚ) (active : Option ℕ) (builders : List LakeBuilder)
    (assoc : List (Option ℕ)) : Prop where
  hlen : assoc.length = heights.length
  shores_ok : ShoresOk heights seaLevel builders
  assoc_sea : AssocSea heights seaLevel assoc
  assoc_lt : AssocLt builders assoc
  area_count : AreaCount builders assoc
  settled : Settled heights adjacent border active builders assoc
  water : Dead builders assoc ∨
    (WaterBounds heights builders assoc ∧ NoStale builders assoc)

/-! ## Generic list lemmas -/

theorem getD_set_self {α : Type _} (l : List α) (i : ℕ) (v d : α) (h : i < l.length) :
    (l.set i v).getD i d = v := by
  rw [List.getD_eq_getD_get?, List.get?_set_eq_of_lt _ h]
  rfl

theorem getD_set_ne {α : Type _} (l : List α) {i j : ℕ} (v d : α) (h : i ≠ j) :
    (l.set i v).getD j d = l.getD j d := by
  rw [List.getD_eq_getD_get?, List.getD_eq_getD_get?, List.get?_set_ne _ _ h]

theorem getD_nonneg {l : List ℚ} (h : ∀ x ∈ l, 0 ≤ x) (n : ℕ) : 0 ≤ l.getD n 0 := by
  rcases Nat.lt_or_ge n l.length with hn | hn
  · rw [List.getD_eq_getElem _ _ hn]
    exact h _ (List.getElem_mem hn)
  · rw [List.getD_eq_default _ _ hn]

/-! ## C1 and C2: the flux router -/

theorem fluxStep_nonneg (heights : List ℚ) (adjacent : List (List ℕ)) (flux : List ℚ)
    (k : ℕ) (h : ∀ x ∈ flux, 0 ≤ x) : ∀ x ∈ fluxStep heights adjacent flux k, 0 ≤ x := by
  intro x hx
  unfold fluxStep at hx
  cases hd : downhill heights (adjacent.getD k []) (heights.getD k 0) with
  | none =>
    rw [hd] at hx
    exact h x hx
  | some nb =>
    rw [hd] at hx
    rcases List.mem_or_eq_of_mem_set hx with hmem | rfl
    · exact h x hmem
    · have h1 := getD_nonneg h nb
      have h2 := getD_nonneg h k
      linarith

theorem foldl_fluxStep_nonneg (heights : List ℚ) (adjacent : List (List ℕ)) :
    ∀ (order : List ℕ) (flux : List ℚ), (∀ x ∈ flux, 0 ≤ x) →
      ∀ x ∈ order.foldl (fluxStep heights adjacent) flux, 0 ≤ x := by
  intro order
  induction order with
  | nil =>
    intro flux h x hx
    simp only [List.foldl_nil] at hx
    exact h x hx
  | cons k rest ih =>
    intro flux h x hx
    rw [List.foldl_cons] at hx
    exact ih _ (fluxStep_nonneg heights adjacent flux k h) x hx

/-- C1 (amended): `get_flux` takes no lake information at all, so the lake-specific
part of the claim fails; what does hold is nonnegativity: every cell's flux is
nonnegative, whatever the heights and adjacency. -/
theorem getFlux_nonneg (heights : List ℚ) (adjacent : List (List ℕ)) (i : ℕ) :
    0 ≤ (getFlux heights adjacent).getD i 0 := by
  apply getD_nonneg
  intro x hx
  refine foldl_fluxStep_nonneg heights adjacent _ _ ?_ x hx
  intro y hy
  rw [List.eq_of_mem_replicate hy]

/-- C1 counterexample: a three-cell descending chain where cells 1 and 2 form a lake
with outlet (highest shore point) 1.  The claim requires the interior lake cell 2 to
receive zero flux, but `get_flux` ignores the lake data and routes into it: its flux
is 2. -/
theorem getFlux_lake_cell_counterexample :
    getFlux [4, 2, 1] [[1], [0, 2], [1]] = [0, 1, 2] ∧
    ([none, some 0, some 0] : List (Option ℕ)).getD 2 none = some 0 ∧
    (Lake.mk 2 2 1 0).highest_shore_point ≠ 2 ∧
    (getFlux [4, 2, 1] [[1], [0, 2], [1]]).getD 2 0 ≠ 0 := by
  refine ⟨?_, by decide, by decide, ?_⟩ <;>
    norm_num [getFlux, descendingOrder, fluxStep, downhill, downhillStep,
      List.insertionSort, List.orderedInsert, List.replicate, List.set]

theorem downhillStep_isSome (heights : List ℚ) (h : ℚ) (acc : Option ℕ) (n : ℕ) :
    (downhillStep heights h acc n).isSome = true ↔
      acc.isSome = true ∨ heights.getD n 0 < h := by
  unfold downhillStep
  by_cases hn : heights.getD n 0 < h
  · rw [if_pos hn]
    cases acc with
    | none => exact iff_of_true rfl (Or.inr hn)
    | some low =>
      refine iff_of_true ?_ (Or.inl rfl)
      show (if heights.getD n 0 < heights.getD low 0 then some n else some low).isSome
        = true
      split <;> rfl
  · rw [if_neg hn]
    constructor
    · exact Or.inl
    · rintro (ha | hlt)
      · exact ha
      · exact absurd hlt hn

theorem foldl_downhillStep_isSome (heights : List ℚ) (h : ℚ) :
    ∀ (l : List ℕ) (acc : Option ℕ),
      ((l.foldl (downhillStep heights h) acc).isSome = true) ↔
        acc.isSome = true ∨ ∃ n ∈ l, heights.getD n 0 < h := by
  intro l
  induction l with
  | nil =>
    intro acc
    simp
  | cons a t ih =>
    intro acc
    rw [List.foldl_cons, ih, downhillStep_isSome]
    constructor
    · rintro ((hacc | ha) | ⟨n, hn, hlt⟩)
      · exact Or.inl hacc
      · exact Or.inr ⟨a, List.mem_cons_self _ _, ha⟩
      · exact Or.inr ⟨n, List.mem_cons_of_mem _ hn, hlt⟩
    · rintro (hacc | ⟨n, hn, hlt⟩)
      · exact Or.inl (Or.inl hacc)
      · rcases List.mem_cons.mp hn with rfl | hn
        · exact Or.inl (Or.inr hlt)
        · exact Or.inr ⟨n, hn, hlt⟩

/-- C2 (amended): a cell routes its discharge somewhere exactly when it has at least
one strictly lower neighbour; there is no degree guard in `get_flux`. -/
theorem downhill_isSome_iff (heights : List ℚ) (adjList : List ℕ) (h : ℚ) :
    (downhill heights adjList h).isSome = true ↔
      ∃ n ∈ adjList, heights.getD n 0 < h := by
  rw [downhill, foldl_downhillStep_isSome]
  simp

/-- C2 counterexample: a ten-cell descending path, every cell of degree at most two.
The claim predicts a flux field that is identically zero; `get_flux` has no degree
guard and produces `[0, 1, …, 9]`. -/
theorem getFlux_path_counterexample :
    (∀ l ∈ ([[1], [0, 2], [1, 3], [2, 4], [3, 5], [4, 6], [5, 7], [6, 8], [7, 9],
        [8]] : List (List ℕ)), l.length ≤ 2) ∧
    getFlux [10, 9, 8, 7, 6, 5, 4, 3, 2, 1]
        [[1], [0, 2], [1, 3], [2, 4], [3, 5], [4, 6], [5, 7], [6, 8], [7, 9], [8]] =
      [0, 1, 2, 3, 4, 5, 6, 7, 8, 9] ∧
    getFlux [10, 9, 8, 7, 6, 5, 4, 3, 2, 1]
        [[1], [0, 2], [1, 3], [2, 4], [3, 5], [4, 6], [5, 7], [6, 8], [7, 9], [8]] ≠
      List.replicate 10 0 := by
  have hval : getFlux [10, 9, 8, 7, 6, 5, 4, 3, 2, 1]
      [[1], [0, 2], [1, 3], [2, 4], [3, 5], [4, 6], [5, 7], [6, 8], [7, 9], [8]] =
      [0, 1, 2, 3, 4, 5, 6, 7, 8, 9] := by
    norm_num [getFlux, descendingOrder, fluxStep, downhill, downhillStep,
      List.insertionSort, List.orderedInsert, List.replicate, List.set]
  refine ⟨by decide, hval, ?_⟩
  rw [hval]
  decide

/-! ## C7: the smoothing pass and the total sum -/

theorem sum_set_add (l : List ℚ) (i : ℕ) (v : ℚ) (h : i < l.length) :
    (l.set i v).sum = l.sum - l.getD i 0 + v := by
  induction l generalizing i with
  | nil => simp at h
  | cons a t ih =>
    cases i with
    | zero =>
      simp only [List.set, List.sum_cons, List.getD_cons_zero]
      ring
    | succ j =>
      simp only [List.set, List.sum_cons, List.getD_cons_succ]
      rw [ih j (by simpa using h)]
      ring

theorem foldl_blend_sum (m : ℚ) :
    ∀ (adjList : List ℕ) (c : List ℚ), adjList.Nodup →
      (∀ n ∈ adjList, n < c.length) →
      (adjList.foldl
          (fun c n => c.set n (c.getD n 0 * (1 - smoothAlpha) + m * smoothAlpha))
          c).sum =
        c.sum + adjList.length * (m * smoothAlpha) -
          smoothAlpha * (adjList.map fun n => c.getD n 0).sum := by
  intro adjList
  induction adjList with
  | nil =>
    intro c _ _
    simp
  | cons a t ih =>
    intro c hnd hb
    have ha : a < c.length := hb a (List.mem_cons_self _ _)
    have hat : a ∉ t := (List.nodup_cons.mp hnd).1
    have hnd' : t.Nodup := (List.nodup_cons.mp hnd).2
    rw [List.foldl_cons,
      ih _ hnd' (fun n hn => by rw [List.length_set]; exact hb n (List.mem_cons_of_mem _ hn))]
    have hmap : (t.map fun n => (c.set a (c.getD a 0 * (1 - smoothAlpha) + m * smoothAlpha)).getD n 0)
        = t.map fun n => c.getD n 0 := by
      refine List.map_congr_left ?_
      intro n hn
      exact getD_set_ne c _ _ fun he => hat (he ▸ hn)
    rw [hmap, sum_set_add c a _ ha]
    simp only [List.length_cons, List.map_cons, List.sum_cons]
    push_cast
    ring

/-- C7 (amended): one per-cell step of `smooth` changes the total sum by exactly the
snapshot height of the visited cell minus its current height; hence a step whose cell
is still unmodified preserves the sum, while the full in-place pass need not. -/
theorem smoothVisit_sum (adjacent : List (List ℕ)) (cur : List ℚ) (i : ℕ) (orig : ℚ)
    (hi : i < cur.length) (hnd : (adjacent.getD i []).Nodup)
    (hself : i ∉ adjacent.getD i []) (hb : ∀ n ∈ adjacent.getD i [], n < cur.length) :
    (smoothVisit adjacent cur (i, orig)).sum = cur.sum + (orig - cur.getD i 0) := by
  unfold smoothVisit
  simp only []
  rw [foldl_blend_sum _ _ _ hnd
    (fun n hn => by rw [List.length_set]; exact hb n hn)]
  have hmap : ((adjacent.getD i []).map fun n =>
        (cur.set i (orig * (1 - smoothAlpha) +
          (((adjacent.getD i []).map fun n => cur.getD n 0).sum + orig) /
            (↑(adjacent.getD i []).length + 1) * smoothAlpha)).getD n 0)
      = (adjacent.getD i []).map fun n => cur.getD n 0 := by
    refine List.map_congr_left ?_
    intro n hn
    exact getD_set_ne cur _ _ fun he => hself (he ▸ hn)
  rw [hmap, sum_set_add cur i _ hi]
  have hden : ((adjacent.getD i []).length : ℚ) + 1 ≠ 0 := by positivity
  field_simp
  ring

/-- Witness for the amended C7 theorem at a concrete two-cell mesh. -/
theorem smoothVisit_sum_witness :
    (smoothVisit [[1], [0]] [0, 1] (0, 0)).sum =
      ([0, 1] : List ℚ).sum + (0 - ([0, 1] : List ℚ).getD 0 0) :=
  smoothVisit_sum [[1], [0]] [0, 1] 0 0 (by decide) (by decide) (by decide)
    (by decide)

/-- C7 counterexample: on a two-cell mesh with symmetric adjacency and heights
`[0, 1]`, exact-arithmetic `smooth` returns a field of sum `133/100`, not `1`: the
in-place pass does not preserve the total sum. -/
theorem smooth_sum_counterexample :
    smooth [0, 1] [[1], [0]] = [5511/10000, 7789/10000] ∧
    (0 : ℕ) ∈ ([[1], [0]] : List (List ℕ)).getD 1 [] ∧
    (1 : ℕ) ∈ ([[1], [0]] : List (List ℕ)).getD 0 [] ∧
    (smooth [0, 1] [[1], [0]]).sum ≠ ([0, 1] : List ℚ).sum := by
  have hval : smooth [0, 1] [[1], [0]] = [5511/10000, 7789/10000] := by
    simp only [smooth, List.enum, List.enumFrom, List.foldl_cons, List.foldl_nil]
    simp only [smoothVisit, smoothAlpha, List.getD_cons_zero, List.getD_cons_succ,
      List.map_cons, List.map_nil, List.sum_cons, List.sum_nil, List.length_cons,
      List.length_nil, List.set_cons_zero, List.set_cons_succ, List.foldl_cons,
      List.foldl_nil, List.getD_nil]
    norm_num
  refine ⟨hval, by decide, by decide, ?_⟩
  rw [hval]
  norm_num

/-! ## C8 and C9: the erosion kernel -/

theorem foldr_min_le (l : List ℝ) (h : ℝ) : l.foldr min h ≤ h := by
  induction l with
  | nil => simp
  | cons a t ih =>
    simp only [List.foldr_cons]
    exact le_trans (min_le_right _ _) ih

/-- C8: a cell strictly below sea level is mapped to
`h - 0.25 * (ln(F+1) * 0.015 * h)`, and for `h < 0`, `F ≥ 0` the result is at least
`h`: underwater erosion raises negative heights toward zero. -/
theorem erode_below_sea (seaLevel flux height : ℝ) (nbr : List ℝ)
    (hsea : height < seaLevel) :
    erodePoint seaLevel flux height nbr =
        height - 0.25 * (Real.log (flux + 1) * 0.015 * height) ∧
      (height < 0 → 0 ≤ flux → height ≤ erodePoint seaLevel flux height nbr) := by
  have hbr : ¬ seaLevel ≤ height := not_le.mpr hsea
  have hval : erodePoint seaLevel flux height nbr =
      height - 0.25 * (Real.log (flux + 1) * 0.015 * height) := by
    simp only [erodePoint, erosionRate]
    rw [if_neg hbr]
    ring
  refine ⟨hval, fun hneg hflux => ?_⟩
  rw [hval]
  have hlog : 0 ≤ Real.log (flux + 1) := Real.log_nonneg (by linarith)
  nlinarith [mul_nonneg hlog (neg_nonneg.mpr hneg.le)]

/-- Witness for C8 at sea level `0`, flux `0`, height `-1`. -/
theorem erode_below_sea_witness :
    (-1 : ℝ) < 0 ∧ (-1 : ℝ) < 0 ∧ (0 : ℝ) ≤ 0 ∧
      (-1 : ℝ) ≤ erodePoint 0 0 (-1) [] :=
  ⟨by norm_num, by norm_num, le_refl 0,
    (erode_below_sea 0 0 (-1) [] (by norm_num)).2 (by norm_num) (le_refl 0)⟩

/-- C9 (amended): on land the kernel is non-increasing provided the height is also
nonnegative: with `0 ≤ h`, `sea ≤ h` and positive flux term, `H'[i] ≤ H[i]`.
(The extra hypothesis is forced: for negative heights above a negative sea level the
kernel increases the height, as the counterexample shows.) -/
theorem erode_nonincreasing_on_land (seaLevel flux height : ℝ) (nbr : List ℝ)
    (hh : 0 ≤ height) (hsea : seaLevel ≤ height)
    (hterm : 0 < Real.log (flux + 1)) :
    erodePoint seaLevel flux height nbr ≤ height := by
  simp only [erodePoint, erosionRate, erodeAlpha]
  rw [if_pos hsea]
  have her : 0 ≤ Real.log (flux + 1) * 0.015 * height := by
    have h1 : (0 : ℝ) ≤ Real.log (flux + 1) * 0.015 :=
      mul_nonneg hterm.le (by norm_num)
    exact mul_nonneg h1 hh
  have heroded : height - Real.log (flux + 1) * 0.015 * height ≤ height := by linarith
  have hlow : nbr.foldr min height ≤ height := foldr_min_le nbr height
  have hmax : max (nbr.foldr min height)
      (height - Real.log (flux + 1) * 0.015 * height) ≤ height := max_le hlow heroded
  nlinarith [hmax, heroded]

/-- Witness for the amended C9 theorem at sea level `0`, flux `1`, height `1`. -/
theorem erode_nonincreasing_on_land_witness :
    (0 : ℝ) ≤ 1 ∧ (0 : ℝ) ≤ 1 ∧ 0 < Real.log ((1 : ℝ) + 1) ∧
      erodePoint 0 1 1 [1/2] ≤ 1 :=
  ⟨by norm_num, by norm_num, Real.log_pos (by norm_num),
    erode_nonincreasing_on_land 0 1 1 [1/2] (by norm_num) (by norm_num)
      (Real.log_pos (by norm_num))⟩

/-- C9 counterexample: with sea level `-1`, a cell at height `-1/2` is on land and
has positive flux term `ln 2`, yet the kernel *raises* it: the claim as stated fails
for negative land heights. -/
theorem erode_land_counterexample :
    (-1 : ℝ) ≤ (-1/2 : ℝ) ∧ 0 < Real.log ((1 : ℝ) + 1) ∧
      (-1/2 : ℝ) < erodePoint (-1) 1 (-1/2) [-2/5] := by
  refine ⟨by norm_num, Real.log_pos (by norm_num), ?_⟩
  have hlog : 0 < Real.log ((1 : ℝ) + 1) := Real.log_pos (by norm_num)
  simp only [erodePoint, erosionRate, erodeAlpha]
  rw [if_pos (by norm_num : (-1 : ℝ) ≤ -1/2)]
  have hfold : ([(-2/5 : ℝ)]).foldr min (-1/2) = -1/2 := by
    simp only [List.foldr_cons, List.foldr_nil]
    exact min_eq_right (by norm_num)
  rw [hfold]
  have her : Real.log ((1 : ℝ) + 1) * 0.015 * (-1/2) < 0 := by
    have hp : 0 < Real.log ((1 : ℝ) + 1) * 0.015 := mul_pos hlog (by norm_num)
    linarith
  have hmax : max (-1/2 : ℝ)
      (-1/2 - Real.log ((1 : ℝ) + 1) * 0.015 * (-1/2)) =
      -1/2 - Real.log ((1 : ℝ) + 1) * 0.015 * (-1/2) := max_eq_right (by linarith)
  rw [hmax]
  nlinarith [her]

/-! ## C3: the publication of `generate_lakes`

The doc comment of `generate_lakes` promises a vector corresponding to each point of
the world, and the spec a `Lake[N]` parallel to `L`; but the implementation flattens
the association array, dropping every unassociated cell, so the vector has one entry
per *lake cell* instead.  On a three-cell mesh whose cell 2 is below sea level the
published vector has length 2, not 3. -/

/-- C3: on the mesh `H = [1, 2, -1]`, cells 0 and 1 form a lake and cell 2 is sea;
`generate_lakes` publishes a vector of length 2 for 3 cells, so indexing it by cell
id is wrong, contrary to the claim, the spec and the function's own doc comment. -/
theorem generateLakes_publication_bug :
    generateLakes [1, 2, -1] [[1], [0, 2], [1]] [false, true, true] 0 =
      some ([⟨2, 2, 1, 0⟩, ⟨2, 2, 1, 0⟩], [some 0, some 0, none]) ∧
    ([⟨2, 2, 1, 0⟩, ⟨2, 2, 1, 0⟩] : List Lake).length ≠
      ([1, 2, -1] : List ℚ).length := by
  decide

/-! ## C4 counterexample

An 11-cell valid mesh (symmetric adjacency, every interior cell of degree ≥ 3) on
which a cell ends up associated to a lake whose final water level is below the
cell's height.  Lake A = {0, 4, 5} spills at cell 5 (water 3) into cell 6; lake B
grows from seed 1, merges A at cell 4 (height 3), and climbs to the border cell 7 at
height 5; lake C grows from seed 2, enters through the old spill exit 6, merges B at
cell 5 (height 3 — below B's water level 5), and stops at the border cell 8 at
height 4.  Cell 7 (height 5) is left associated to lake C with water level 4. -/

/-- C4 counterexample: after `generate_lakes` on the mesh below, cell 7 has height 5
but belongs to lake 2 whose water level is 4. -/
theorem lake_water_level_counterexample :
    generateLakesBuilders [1, 1, 1, 3, 3, 3, 2, 5, 4, 9, 9]
        [[4], [3], [6, 8], [1, 4, 7], [0, 5, 3], [4, 6, 9], [5, 2, 10], [3], [2], [5],
          [6]]
        [true, true, true, false, false, false, false, true, true, true, true] 0 =
      some ([⟨0, 0, 0, []⟩, ⟨0, 0, 0, []⟩, ⟨4, 9, 8, [⟨10, 9⟩, ⟨9, 9⟩]⟩],
        [some 2, some 2, some 2, some 2, some 2, some 2, some 2, some 2, some 2, none,
          none]) ∧
    (∀ p ∈ List.range 11,
      ∀ j ∈ ([[4], [3], [6, 8], [1, 4, 7], [0, 5, 3], [4, 6, 9], [5, 2, 10], [3], [2],
          [5], [6]] : List (List ℕ)).getD p [],
        p ∈ ([[4], [3], [6, 8], [1, 4, 7], [0, 5, 3], [4, 6, 9], [5, 2, 10], [3], [2],
          [5], [6]] : List (List ℕ)).getD j []) ∧
    (∀ p ∈ List.range 11,
      ([true, true, true, false, false, false, false, true, true, true, true] :
          List Bool).getD p false = true ∨
        3 ≤ (([[4], [3], [6, 8], [1, 4, 7], [0, 5, 3], [4, 6, 9], [5, 2, 10], [3], [2],
          [5], [6]] : List (List ℕ)).getD p []).length) ∧
    ([some 2, some 2, some 2, some 2, some 2, some 2, some 2, some 2, some 2, none,
        none] : List (Option ℕ)).getD 7 none = some 2 ∧
    ¬ ([1, 1, 1, 3, 3, 3, 2, 5, 4, 9, 9] : List ℚ).getD 7 0 ≤
        (([⟨0, 0, 0, []⟩, ⟨0, 0, 0, []⟩, ⟨4, 9, 8, [⟨10, 9⟩, ⟨9, 9⟩]⟩] :
          List LakeBuilder).getD 2 default).water_level := by
  decide

/-! ## C6 counterexample

A lake can stop expanding because its spill point itself is on the map border, while
every neighbour of the spill point is high and off-border: the claim's version of the
invariant (which puts the border condition on a *neighbour*) then fails. -/

/-- C6 counterexample: on a valid seven-cell mesh the lake {0, 1} stops at cell 1
because cell 1 is on the border; cell 1 has no neighbour that is lower-and-outside
or on the border, refuting the claim as stated (its height does equal the water
level). -/
theorem lake_hsp_counterexample :
    generateLakesBuilders [1, 2, 3, 5, 6, 7, 8]
        [[1, 3, 4], [0, 2], [1, 5, 6], [0], [0], [2], [2]]
        [false, true, false, true, true, true, true] 0 =
      some ([⟨2, 2, 1, [⟨3, 5⟩, ⟨4, 6⟩]⟩],
        [some 0, some 0, none, none, none, none, none]) ∧
    ([1, 2, 3, 5, 6, 7, 8] : List ℚ).getD 1 0 = 2 ∧
    ¬ ∃ n ∈ ([[1, 3, 4], [0, 2], [1, 5, 6], [0], [0], [2], [2]] :
          List (List ℕ)).getD 1 [],
        (([1, 2, 3, 5, 6, 7, 8] : List ℚ).getD n 0 < 2 ∧
          ([some 0, some 0, none, none, none, none, none] :
            List (Option ℕ)).getD n none ≠ some 0) ∨
        ([false, true, false, true, true, true, true] : List Bool).getD n false =
          true := by
  decide

/-! ## Helper lemmas for the lake invariants -/

theorem default_lakeBuilder : (default : LakeBuilder) = ⟨0, 0, 0, []⟩ :=
  rfl

theorem getD_mem_of_lt {α : Type _} (l : List α) (i : ℕ) (d : α) (h : i < l.length) :
    l.getD i d ∈ l := by
  rw [List.getD_eq_getElem _ _ h]
  exact List.getElem_mem h

theorem getD_replicate_none (n i : ℕ) :
    (List.replicate n (none : Option ℕ)).getD i none = none := by
  rcases Nat.lt_or_ge i n with hi | hi
  · rw [List.getD_eq_getElem _ _ (by simpa using hi)]
    exact List.getElem_replicate _ _
  · rw [List.getD_eq_default]
    simpa using hi

theorem adj_getD_bound {heights : List ℚ} {adjacent : List (List ℕ)}
    (hadj : ∀ l ∈ adjacent, ∀ n ∈ l, n < heights.length) (j : ℕ) :
    ∀ n ∈ adjacent.getD j [], n < heights.length := by
  intro n hn
  rcases Nat.lt_or_ge j adjacent.length with hj | hj
  · exact hadj _ (getD_mem_of_lt _ _ _ hj) n hn
  · rw [List.getD_eq_default _ _ hj] at hn
    simp at hn

theorem enum_spec {α : Type _} (l : List α) (d : α) :
    ∀ p ∈ l.enum, p.1 < l.length ∧ l.getD p.1 d = p.2 := by
  intro p hp
  rw [List.mem_enum_iff_getElem?] at hp
  have h1 : p.1 < l.length := by
    by_contra hge
    rw [List.getElem?_eq_none (le_of_not_lt hge)] at hp
    exact Option.noConfusion hp
  refine ⟨h1, ?_⟩
  rw [List.getD_eq_getElem _ _ h1]
  rw [List.getElem?_eq_getElem h1] at hp
  exact Option.some_inj.mp hp

theorem getD_map_none {f : Option ℕ → Option ℕ} (hf : f none = none)
    (l : List (Option ℕ)) (i : ℕ) : (l.map f).getD i none = f (l.getD i none) := by
  rcases Nat.lt_or_ge i l.length with hi | hi
  · rw [List.getD_eq_getElem _ _ (by simpa using hi), List.getElem_map,
      List.getD_eq_getElem _ _ hi]
  · rw [List.getD_eq_default _ _ (by simpa using hi), List.getD_eq_default _ _ hi, hf]

theorem countP_set_add (l : List (Option ℕ)) (i : ℕ) (v : Option ℕ)
    (p : Option ℕ → Bool) (h : i < l.length) :
    (l.set i v).countP p + (if p (l.getD i none) then 1 else 0) =
      l.countP p + (if p v then 1 else 0) := by
  induction l generalizing i with
  | nil => simp at h
  | cons a t ih =>
    cases i with
    | zero =>
      simp only [List.set, List.countP_cons, List.getD_cons_zero]
      omega
    | succ j =>
      simp only [List.set, List.countP_cons, List.getD_cons_succ]
      have := ih j (by simpa using h)
      omega

theorem shorePoint_ext {a b : ShorePoint} (h1 : a.id = b.id)
    (h2 : a.height = b.height) : a = b := by
  cases a
  cases b
  simp_all

theorem popFold_le (ys : List ShorePoint) :
    ∀ acc : ShorePoint,
      (ys.foldl (fun best y => if shoreBefore y best then y else best) acc).height ≤
          acc.height ∧
        ∀ y ∈ ys,
          (ys.foldl (fun best y => if shoreBefore y best then y else best) acc).height ≤
            y.height := by
  induction ys with
  | nil =>
    intro acc
    simp
  | cons y t ih =>
    intro acc
    rw [List.foldl_cons]
    by_cases hc : shoreBefore y acc
    · rw [if_pos hc]
      obtain ⟨h1, h2⟩ := ih y
      have hy_le_acc : y.height ≤ acc.height := by
        rcases hc with hlt | ⟨heq, _⟩
        · exact hlt.le
        · exact heq.le
      refine ⟨le_trans h1 hy_le_acc, ?_⟩
      intro z hz
      rcases List.mem_cons.mp hz with rfl | hz
      · exact h1
      · exact h2 z hz
    · rw [if_neg hc]
      obtain ⟨h1, h2⟩ := ih acc
      have hacc_le_y : acc.height ≤ y.height := by
        unfold shoreBefore at hc
        push_neg at hc
        exact hc.1
      refine ⟨h1, ?_⟩
      intro z hz
      rcases List.mem_cons.mp hz with rfl | hz
      · exact le_trans h1 hacc_le_y
      · exact h2 z hz

theorem popFold_mem (ys : List ShorePoint) :
    ∀ (acc : ShorePoint) (S : List ShorePoint), acc ∈ S → (∀ y ∈ ys, y ∈ S) →
      ys.foldl (fun best y => if shoreBefore y best then y else best) acc ∈ S := by
  induction ys with
  | nil =>
    intro acc S ha _
    simpa using ha
  | cons y t ih =>
    intro acc S ha hy
    rw [List.foldl_cons]
    refine ih _ S ?_ fun z hz => hy z (List.mem_cons_of_mem _ hz)
    by_cases hc : shoreBefore y acc
    · rw [if_pos hc]
      exact hy y (List.mem_cons_self _ _)
    · rw [if_neg hc]
      exact ha

theorem popBest_mem {l : List ShorePoint} {s : ShorePoint} (h : popBest l = some s) :
    s ∈ l := by
  match l with
  | [] => simp [popBest] at h
  | x :: xs =>
    simp only [popBest, Option.some_inj] at h
    rw [← h]
    exact popFold_mem xs x (x :: xs) (List.mem_cons_self _ _)
      fun y hy => List.mem_cons_of_mem _ hy

theorem popBest_le {l : List ShorePoint} {s : ShorePoint} (h : popBest l = some s) :
    ∀ e ∈ l, s.height ≤ e.height := by
  match l with
  | [] => simp [popBest] at h
  | x :: xs =>
    simp only [popBest, Option.some_inj] at h
    intro e he
    obtain ⟨h1, h2⟩ := popFold_le xs x
    rcases List.mem_cons.mp he with rfl | he
    · rw [← h]
      exact h1
    · rw [← h]
      exact h2 e he

/-! ## Shape lemmas for the expansion step -/

theorem getD_some_lt {assoc : List (Option ℕ)} {i k : ℕ}
    (h : assoc.getD i none = some k) : i < assoc.length := by
  by_contra hge
  rw [List.getD_eq_default _ _ (le_of_not_lt hge)] at h
  exact Option.noConfusion h

theorem countP_some_pos {assoc : List (Option ℕ)} {i k : ℕ}
    (h : assoc.getD i none = some k) :
    1 ≤ assoc.countP fun o => decide (o = some k) := by
  have hi := getD_some_lt h
  refine List.countP_pos_iff.mpr ⟨some k, ?_, by simp⟩
  rw [← h]
  exact getD_mem_of_lt _ _ _ hi

theorem removePopped_length (lakeId : ℕ) (s : ShorePoint)
    (builders : List LakeBuilder) :
    (removePopped lakeId s builders).length = builders.length :=
  List.length_set _ _ _

theorem removePopped_getD_self {lakeId : ℕ} (s : ShorePoint)
    {builders : List LakeBuilder} (h : lakeId < builders.length) :
    (removePopped lakeId s builders).getD lakeId default =
      { builders.getD lakeId default with
        shores := (builders.getD lakeId default).shores.filter (· ≠ s) } :=
  getD_set_self _ _ _ _ h

theorem removePopped_getD_ne (lakeId : ℕ) (s : ShorePoint)
    (builders : List LakeBuilder) {k : ℕ} (h : lakeId ≠ k) :
    (removePopped lakeId s builders).getD k default = builders.getD k default :=
  getD_set_ne _ _ _ h

theorem commitBuilder_length (lakeId : ℕ) (s : ShorePoint)
    (builders : List LakeBuilder) :
    (commitBuilder lakeId s builders).length = builders.length :=
  List.length_set _ _ _

theorem commitBuilder_getD_self {lakeId : ℕ} (s : ShorePoint)
    {builders : List LakeBuilder} (h : lakeId < builders.length) :
    (commitBuilder lakeId s builders).getD lakeId default =
      { builders.getD lakeId default with
        water_level := s.height
        area := (builders.getD lakeId default).area + 1
        highest_shore_point := s.id } :=
  getD_set_self _ _ _ _ h

theorem commitBuilder_getD_ne (lakeId : ℕ) (s : ShorePoint)
    (builders : List LakeBuilder) {k : ℕ} (h : lakeId ≠ k) :
    (commitBuilder lakeId s builders).getD k default = builders.getD k default :=
  getD_set_ne _ _ _ h

theorem addPushes_length (lakeId : ℕ) (pushes : List ShorePoint)
    (builders : List LakeBuilder) :
    (addPushes lakeId pushes builders).length = builders.length :=
  List.length_set _ _ _

theorem addPushes_getD_self {lakeId : ℕ} (pushes : List ShorePoint)
    {builders : List LakeBuilder} (h : lakeId < builders.length) :
    (addPushes lakeId pushes builders).getD lakeId default =
      { builders.getD lakeId default with
        shores := (builders.getD lakeId default).shores ++ pushes } :=
  getD_set_self _ _ _ _ h

theorem addPushes_getD_ne (lakeId : ℕ) (pushes : List ShorePoint)
    (builders : List LakeBuilder) {k : ℕ} (h : lakeId ≠ k) :
    (addPushes lakeId pushes builders).getD k default = builders.getD k default :=
  getD_set_ne _ _ _ h

theorem mergeStep_none {lakeId : ℕ} {s : ShorePoint} {assoc : List (Option ℕ)}
    (builders : List LakeBuilder) (hm : assoc.getD s.id none = none) :
    mergeStep lakeId s builders assoc = (builders, assoc) := by
  unfold mergeStep
  rw [hm]

theorem mergeStep_some {lakeId : ℕ} {s : ShorePoint} {assoc : List (Option ℕ)}
    {otherId : ℕ} (builders : List LakeBuilder)
    (hm : assoc.getD s.id none = some otherId) :
    mergeStep lakeId s builders assoc = mergeLakes lakeId otherId builders assoc := by
  unfold mergeStep
  rw [hm]

theorem mergeLakes_fst_length (lakeId otherId : ℕ) (builders : List LakeBuilder)
    (assoc : List (Option ℕ)) :
    (mergeLakes lakeId otherId builders assoc).1.length = builders.length := by
  unfold mergeLakes
  simp [List.length_set]

theorem mergeLakes_snd_length (lakeId otherId : ℕ) (builders : List LakeBuilder)
    (assoc : List (Option ℕ)) :
    (mergeLakes lakeId otherId builders assoc).2.length = assoc.length := by
  unfold mergeLakes
  simp

theorem mergeLakes_snd_getD (lakeId otherId : ℕ) (builders : List LakeBuilder)
    (assoc : List (Option ℕ)) (i : ℕ) :
    (mergeLakes lakeId otherId builders assoc).2.getD i none =
      if assoc.getD i none = some otherId then some lakeId
      else assoc.getD i none := by
  unfold mergeLakes
  exact getD_map_none (by simp) assoc i

theorem mergeLakes_fst_getD_keeper {lakeId : ℕ} (otherId : ℕ)
    {builders : List LakeBuilder} (assoc : List (Option ℕ))
    (h : lakeId < builders.length) :
    (mergeLakes lakeId otherId builders assoc).1.getD lakeId default =
      { (builders.set otherId default).getD lakeId default with
        shores := ((builders.set otherId default).getD lakeId default).shores ++
          (builders.getD otherId default).shores
        area := ((builders.set otherId default).getD lakeId default).area +
          ((builders.getD otherId default).area - 1) } := by
  unfold mergeLakes
  exact getD_set_self _ _ _ _ (by rw [List.length_set]; exact h)

theorem mergeLakes_fst_getD_ne {lakeId otherId k : ℕ} (builders : List LakeBuilder)
    (assoc : List (Option ℕ)) (hk : k ≠ lakeId) (hk2 : k ≠ otherId) :
    (mergeLakes lakeId otherId builders assoc).1.getD k default =
      builders.getD k default := by
  unfold mergeLakes
  rw [getD_set_ne _ _ _ (Ne.symm hk), getD_set_ne _ _ _ (Ne.symm hk2)]

theorem mergeLakes_snd (lakeId otherId : ℕ) (builders : List LakeBuilder)
    (assoc : List (Option ℕ)) :
    (mergeLakes lakeId otherId builders assoc).2 =
      assoc.map fun o => if o = some otherId then some lakeId else o :=
  rfl

theorem mergeLakes_fst_getD_other {lakeId otherId : ℕ}
    {builders : List LakeBuilder} (assoc : List (Option ℕ))
    (hne : lakeId ≠ otherId) (h : otherId < builders.length) :
    (mergeLakes lakeId otherId builders assoc).1.getD otherId default = default := by
  unfold mergeLakes
  rw [getD_set_ne _ _ _ hne]
  exact getD_set_self _ _ _ _ h

theorem countP_remap_ne (assoc : List (Option ℕ)) {lakeId otherId k : ℕ}
    (hk : k ≠ lakeId) (hk2 : k ≠ otherId) :
    ((assoc.map fun o => if o = some otherId then some lakeId else o).countP
      fun o => decide (o = some k)) =
      assoc.countP fun o => decide (o = some k) := by
  rw [List.countP_map]
  refine List.countP_congr ?_
  intro o _
  simp only [Function.comp]
  by_cases ho : o = some otherId
  · subst ho
    simp [Ne.symm hk, Ne.symm hk2]
  · simp [ho]

theorem countP_remap_other (assoc : List (Option ℕ)) {lakeId otherId : ℕ}
    (hne : otherId ≠ lakeId) :
    ((assoc.map fun o => if o = some otherId then some lakeId else o).countP
      fun o => decide (o = some otherId)) = 0 := by
  rw [List.countP_map, List.countP_eq_zero]
  intro o _
  simp only [Function.comp]
  by_cases ho : o = some otherId
  · subst ho
    simp [Ne.symm hne]
  · simp [ho]

theorem countP_or_ne (assoc : List (Option ℕ)) (a b : Option ℕ) (hab : a ≠ b) :
    (assoc.countP fun o => decide (o = a) || decide (o = b)) =
      (assoc.countP fun o => decide (o = a)) +
        (assoc.countP fun o => decide (o = b)) := by
  induction assoc with
  | nil => simp
  | cons x t ih =>
    simp only [List.countP_cons, ih]
    by_cases hx : x = a
    · subst hx
      simp [hab]
      omega
    · by_cases hx2 : x = b
      · subst hx2
        simp [hx]
        omega
      · simp [hx, hx2]

theorem countP_remap_keeper (assoc : List (Option ℕ)) {lakeId otherId : ℕ}
    (hne : otherId ≠ lakeId) :
    ((assoc.map fun o => if o = some otherId then some lakeId else o).countP
      fun o => decide (o = some lakeId)) =
      (assoc.countP fun o => decide (o = some lakeId)) +
        (assoc.countP fun o => decide (o = some otherId)) := by
  rw [List.countP_map]
  rw [show (((fun o => decide (o = some lakeId)) ∘
      fun o => if o = some otherId then some lakeId else o) : Option ℕ → Bool) =
      fun o => decide (o = some lakeId) || decide (o = some otherId) from ?_]
  · exact countP_or_ne assoc _ _ (fun h => hne (Option.some_inj.mp h).symm)
  · funext o
    simp only [Function.comp]
    by_cases ho : o = some otherId
    · simp [ho]
    · simp [ho]

theorem remap_self (assoc : List (Option ℕ)) (k : ℕ) :
    (assoc.map fun o => if o = some k then some k else o) = assoc := by
  have : (assoc.map fun o => if o = some k then some k else o) = assoc.map id := by
    refine List.map_congr_left ?_
    intro o _
    by_cases ho : o = some k
    · simp [ho]
    · simp [ho]
  rw [this, List.map_id]

/-! ## Invariant preservation through one expansion step -/

section StepPreservation

variable {heights : List ℚ} {adjacent : List (List ℕ)} {border : List Bool}
  {seaLevel : ℚ} {lakeId : ℕ} {builders : List LakeBuilder}
  {assoc : List (Option ℕ)} {s : ShorePoint}

/-- The conclusions established about the state after merge-and-commit. -/
def StepGoal (heights : List ℚ) (adjacent : List (List ℕ)) (border : List Bool)
    (seaLevel : ℚ) (lakeId : ℕ) (builders : List LakeBuilder)
    (assoc : List (Option ℕ)) (s : ShorePoint) : Prop :=
  (stepState lakeId s builders assoc).1.length = builders.length ∧
  (stepState lakeId s builders assoc).2.length = assoc.length ∧
  (stepState lakeId s builders assoc).2.getD s.id none = some lakeId ∧
  ((stepState lakeId s builders assoc).1.getD lakeId default).water_level =
    s.height ∧
  ((stepState lakeId s builders assoc).1.getD lakeId default).highest_shore_point =
    s.id ∧
  heights.getD s.id 0 = s.height ∧
  Inv heights adjacent border seaLevel (some lakeId)
    (stepState lakeId s builders assoc).1 (stepState lakeId s builders assoc).2

theorem step_inv_none
    (hlt : lakeId < builders.length)
    (hactive : ∃ i, assoc.getD i none = some lakeId)
    (hinv : Inv heights adjacent border seaLevel (some lakeId) builders assoc)
    (hpop : popBest (builders.getD lakeId default).shores = some s)
    (hm : assoc.getD s.id none = none) :
    StepGoal heights adjacent border seaLevel lakeId builders assoc s := by
  obtain ⟨hs_h, hs_sea, hs_lt⟩ :=
    hinv.shores_ok _ (getD_mem_of_lt _ _ _ hlt) s (popBest_mem hpop)
  have hsid : s.id < assoc.length := by rw [hinv.hlen]; exact hs_lt
  have hstep1 : (stepState lakeId s builders assoc).1 =
      commitBuilder lakeId s (removePopped lakeId s builders) := by
    simp only [stepState, mergeStep_none _ hm]
  have hstep2 : (stepState lakeId s builders assoc).2 =
      assoc.set s.id (some lakeId) := by
    simp only [stepState, mergeStep_none _ hm]
  have hltB1 : lakeId < (removePopped lakeId s builders).length := by
    rw [removePopped_length]
    exact hlt
  have hB2self :
      (commitBuilder lakeId s (removePopped lakeId s builders)).getD lakeId default =
      ⟨s.height, (builders.getD lakeId default).area + 1, s.id,
        (builders.getD lakeId default).shores.filter (· ≠ s)⟩ := by
    rw [commitBuilder_getD_self s hltB1, removePopped_getD_self s hlt]
  have hB2ne : ∀ k, k ≠ lakeId →
      (commitBuilder lakeId s (removePopped lakeId s builders)).getD k default =
        builders.getD k default := by
    intro k hk
    rw [commitBuilder_getD_ne _ _ _ (Ne.symm hk), removePopped_getD_ne _ _ _ (Ne.symm hk)]
  have hA2self : (assoc.set s.id (some lakeId)).getD s.id none = some lakeId :=
    getD_set_self _ _ _ _ hsid
  have hA2ne : ∀ i, i ≠ s.id →
      (assoc.set s.id (some lakeId)).getD i none = assoc.getD i none := by
    intro i hi
    exact getD_set_ne _ _ _ fun h => hi h.symm
  unfold StepGoal
  rw [hstep1, hstep2]
  refine ⟨by rw [commitBuilder_length, removePopped_length], List.length_set _ _ _,
    hA2self, by rw [hB2self], by rw [hB2self], hs_h.symm, ?_⟩
  refine ⟨?_, ?_, ?_, ?_, ?_, ?_, ?_⟩
  · -- hlen
    rw [List.length_set]
    exact hinv.hlen
  · -- shores_ok
    intro b hb e he
    rcases List.mem_or_eq_of_mem_set hb with hb1 | rfl
    · rcases List.mem_or_eq_of_mem_set hb1 with hb2 | rfl
      · exact hinv.shores_ok b hb2 e he
      · exact hinv.shores_ok _ (getD_mem_of_lt _ _ _ hlt) e (List.mem_of_mem_filter he)
    · rw [removePopped_getD_self s hlt] at he
      exact hinv.shores_ok _ (getD_mem_of_lt _ _ _ hlt) e (List.mem_of_mem_filter he)
  · -- assoc_sea
    intro i k hik
    by_cases hi : i = s.id
    · subst hi
      rw [← hs_h]
      exact hs_sea
    · rw [hA2ne i hi] at hik
      exact hinv.assoc_sea i k hik
  · -- assoc_lt
    intro i k hik
    rw [commitBuilder_length, removePopped_length]
    by_cases hi : i = s.id
    · subst hi
      rw [hA2self] at hik
      rw [← Option.some_inj.mp hik]
      exact hlt
    · rw [hA2ne i hi] at hik
      exact hinv.assoc_lt i k hik
  · -- area_count
    intro k
    by_cases hk : k = lakeId
    · subst hk
      have hcount := countP_set_add assoc s.id (some k)
        (fun o => decide (o = some k)) hsid
      rw [hm] at hcount
      simp at hcount
      rw [hB2self]
      show (builders.getD k default).area + 1 = _
      have harea := hinv.area_count k
      omega
    · have hcount := countP_set_add assoc s.id (some lakeId)
        (fun o => decide (o = some k)) hsid
      rw [hm] at hcount
      have hlk : ¬ lakeId = k := fun h => hk h.symm
      simp [hlk] at hcount
      rw [hB2ne k hk, hcount]
      exact hinv.area_count k
  · -- settled
    intro k hkact hkim
    have hk : k ≠ lakeId := fun h => hkact (by rw [h])
    obtain ⟨i, hi⟩ := hkim
    by_cases his : i = s.id
    · subst his
      rw [hA2self] at hi
      exact absurd (Option.some_inj.mp hi).symm hk
    · rw [hA2ne i his] at hi
      have hold := hinv.settled k hkact ⟨i, hi⟩
      unfold HspProp at hold ⊢
      rw [hB2ne k hk]
      obtain ⟨hW, hwit⟩ := hold
      refine ⟨hW, ?_⟩
      rcases hwit with ⟨n, hn, hlt2, hne2⟩ | hb
      · left
        refine ⟨n, hn, hlt2, ?_⟩
        by_cases hns : n = s.id
        · subst hns
          rw [hA2self]
          exact fun h => hk (Option.some_inj.mp h).symm
        · rw [hA2ne n hns]
          exact hne2
      · right
        exact hb
  · -- water
    rcases hinv.water with ⟨kd, hkdlt, hkd⟩ | ⟨hWB, hNS⟩
    · left
      refine ⟨kd, by rw [commitBuilder_length, removePopped_length]; exact hkdlt, ?_⟩
      intro i
      by_cases hi : i = s.id
      · subst hi
        rw [hA2self]
        intro h
        obtain ⟨j, hj⟩ := hactive
        exact hkd j ((Option.some_inj.mp h) ▸ hj)
      · rw [hA2ne i hi]
        exact hkd i
    · right
      refine ⟨⟨?_, ?_⟩, ?_⟩
      · -- entries at or above water level
        intro k e he
        by_cases hk : k = lakeId
        · subst hk
          rw [hB2self] at he ⊢
          exact popBest_le hpop e (List.mem_of_mem_filter he)
        · rw [hB2ne k hk] at he ⊢
          exact hWB.1 k e he
      · -- members at or below water level
        intro i k hik
        by_cases hi : i = s.id
        · subst hi
          rw [hA2self] at hik
          rw [← Option.some_inj.mp hik, hB2self, ← hs_h]
        · rw [hA2ne i hi] at hik
          have hold := hWB.2 i k hik
          by_cases hk : k = lakeId
          · subst hk
            rw [hB2self]
            have hws : (builders.getD k default).water_level ≤ s.height :=
              hWB.1 k s (popBest_mem hpop)
            exact le_trans hold hws
          · rw [hB2ne k hk]
            exact hold
      · -- no stale entries
        intro k e he
        by_cases hk : k = lakeId
        · subst hk
          rw [hB2self] at he
          have hmem := List.mem_filter.mp he
          have hes : e ≠ s := by simpa using hmem.2
          have heid : e.id ≠ s.id := by
            intro hid
            obtain ⟨he_h, _, _⟩ :=
              hinv.shores_ok _ (getD_mem_of_lt _ _ _ hlt) e hmem.1
            exact hes (shorePoint_ext hid (by rw [he_h, hid, ← hs_h]))
          rw [hA2ne e.id heid]
          exact hNS k e hmem.1
        · rw [hB2ne k hk] at he
          by_cases hei : e.id = s.id
          · rw [hei, hA2self]
            exact fun h => hk (Option.some_inj.mp h).symm
          · rw [hA2ne e.id hei]
            exact hNS k e he

theorem step_inv_self
    (hlt : lakeId < builders.length)
    (hactive : ∃ i, assoc.getD i none = some lakeId)
    (hinv : Inv heights adjacent border seaLevel (some lakeId) builders assoc)
    (hpop : popBest (builders.getD lakeId default).shores = some s)
    (hm : assoc.getD s.id none = some lakeId) :
    StepGoal heights adjacent border seaLevel lakeId builders assoc s := by
  obtain ⟨hs_h, hs_sea, hs_lt⟩ :=
    hinv.shores_ok _ (getD_mem_of_lt _ _ _ hlt) s (popBest_mem hpop)
  have hsid : s.id < assoc.length := by rw [hinv.hlen]; exact hs_lt
  have hltB1 : lakeId < (removePopped lakeId s builders).length := by
    rw [removePopped_length]
    exact hlt
  -- the remap with otherId = lakeId is the identity, so the association map ends up
  -- exactly as in the merge-free case
  have hAM : (mergeLakes lakeId lakeId (removePopped lakeId s builders) assoc).2 =
      assoc := by
    rw [mergeLakes_snd, remap_self]
  have hstep1 : (stepState lakeId s builders assoc).1 =
      commitBuilder lakeId s
        (mergeLakes lakeId lakeId (removePopped lakeId s builders) assoc).1 := by
    simp only [stepState, mergeStep_some _ hm]
  have hstep2 : (stepState lakeId s builders assoc).2 =
      assoc.set s.id (some lakeId) := by
    simp only [stepState, mergeStep_some _ hm]
    rw [hAM]
  have hBM := @mergeLakes_fst_getD_keeper lakeId lakeId
    (removePopped lakeId s builders) assoc hltB1
  rw [getD_set_self _ _ _ _ hltB1, removePopped_getD_self s hlt] at hBM
  have hBM_shores :
      ((mergeLakes lakeId lakeId (removePopped lakeId s builders) assoc).1.getD
        lakeId default).shores =
      (builders.getD lakeId default).shores.filter (· ≠ s) := by
    rw [hBM]
    rfl
  have hBM_area :
      ((mergeLakes lakeId lakeId (removePopped lakeId s builders) assoc).1.getD
        lakeId default).area = (builders.getD lakeId default).area - 1 := by
    rw [hBM]
    simp [default_lakeBuilder]
  have hBM_len :
      (mergeLakes lakeId lakeId (removePopped lakeId s builders) assoc).1.length =
        builders.length := by
    rw [mergeLakes_fst_length, removePopped_length]
  have hBM_ne : ∀ k, k ≠ lakeId →
      ((mergeLakes lakeId lakeId (removePopped lakeId s builders) assoc).1.getD
        k default) = builders.getD k default := by
    intro k hk
    rw [mergeLakes_fst_getD_ne _ _ hk hk, removePopped_getD_ne _ _ _ (Ne.symm hk)]
  have hltBM : lakeId <
      (mergeLakes lakeId lakeId (removePopped lakeId s builders) assoc).1.length := by
    rw [hBM_len]
    exact hlt
  have hB2self := @commitBuilder_getD_self lakeId s _ hltBM
  have hB2_water :
      ((commitBuilder lakeId s
        (mergeLakes lakeId lakeId (removePopped lakeId s builders) assoc).1).getD
          lakeId default).water_level = s.height := by
    rw [hB2self]
  have hB2_hsp :
      ((commitBuilder lakeId s
        (mergeLakes lakeId lakeId (removePopped lakeId s builders) assoc).1).getD
          lakeId default).highest_shore_point = s.id := by
    rw [hB2self]
  have hB2_area :
      ((commitBuilder lakeId s
        (mergeLakes lakeId lakeId (removePopped lakeId s builders) assoc).1).getD
          lakeId default).area = ((builders.getD lakeId default).area - 1) + 1 := by
    rw [hB2self]
    show ((mergeLakes lakeId lakeId (removePopped lakeId s builders) assoc).1.getD
      lakeId default).area + 1 = _
    rw [hBM_area]
  have hB2_shores :
      ((commitBuilder lakeId s
        (mergeLakes lakeId lakeId (removePopped lakeId s builders) assoc).1).getD
          lakeId default).shores =
      (builders.getD lakeId default).shores.filter (· ≠ s) := by
    rw [hB2self]
    show ((mergeLakes lakeId lakeId (removePopped lakeId s builders) assoc).1.getD
      lakeId default).shores = _
    exact hBM_shores
  have hB2ne : ∀ k, k ≠ lakeId →
      ((commitBuilder lakeId s
        (mergeLakes lakeId lakeId (removePopped lakeId s builders) assoc).1).getD
          k default) = builders.getD k default := by
    intro k hk
    rw [commitBuilder_getD_ne _ _ _ (Ne.symm hk)]
    exact hBM_ne k hk
  have hA2self : (assoc.set s.id (some lakeId)).getD s.id none = some lakeId :=
    getD_set_self _ _ _ _ hsid
  have hA2ne : ∀ i, i ≠ s.id →
      (assoc.set s.id (some lakeId)).getD i none = assoc.getD i none := by
    intro i hi
    exact getD_set_ne _ _ _ fun h => hi h.symm
  have harea_pos : 1 ≤ (builders.getD lakeId default).area := by
    rw [hinv.area_count lakeId]
    exact countP_some_pos hm
  unfold StepGoal
  rw [hstep1, hstep2]
  refine ⟨by rw [commitBuilder_length, hBM_len], List.length_set _ _ _,
    hA2self, hB2_water, hB2_hsp, hs_h.symm, ?_⟩
  refine ⟨?_, ?_, ?_, ?_, ?_, ?_, ?_⟩
  · rw [List.length_set]
    exact hinv.hlen
  · -- shores_ok
    intro b hb e he
    rcases List.mem_or_eq_of_mem_set hb with hb1 | rfl
    · rcases List.mem_or_eq_of_mem_set hb1 with hb2 | rfl
      · rcases List.mem_or_eq_of_mem_set hb2 with hb3 | rfl
        · rcases List.mem_or_eq_of_mem_set hb3 with hb4 | rfl
          · exact hinv.shores_ok b hb4 e he
          · exact hinv.shores_ok _ (getD_mem_of_lt _ _ _ hlt) e
              (List.mem_of_mem_filter he)
        · simp [default_lakeBuilder] at he
      · rw [getD_set_self _ _ _ _ hltB1, removePopped_getD_self s hlt] at he
        simp only [List.nil_append] at he
        exact hinv.shores_ok _ (getD_mem_of_lt _ _ _ hlt) e
          (List.mem_of_mem_filter he)
    · rw [hBM_shores] at he
      exact hinv.shores_ok _ (getD_mem_of_lt _ _ _ hlt) e (List.mem_of_mem_filter he)
  · -- assoc_sea
    intro i k hik
    by_cases hi : i = s.id
    · subst hi
      rw [← hs_h]
      exact hs_sea
    · rw [hA2ne i hi] at hik
      exact hinv.assoc_sea i k hik
  · -- assoc_lt
    intro i k hik
    rw [commitBuilder_length, hBM_len]
    by_cases hi : i = s.id
    · subst hi
      rw [hA2self] at hik
      rw [← Option.some_inj.mp hik]
      exact hlt
    · rw [hA2ne i hi] at hik
      exact hinv.assoc_lt i k hik
  · -- area_count
    intro k
    by_cases hk : k = lakeId
    · subst hk
      have hcount := countP_set_add assoc s.id (some k)
        (fun o => decide (o = some k)) hsid
      rw [hm] at hcount
      simp at hcount
      rw [hB2_area, hcount]
      have harea := hinv.area_count k
      omega
    · have hcount := countP_set_add assoc s.id (some lakeId)
        (fun o => decide (o = some k)) hsid
      rw [hm] at hcount
      have hlk : ¬ lakeId = k := fun h => hk h.symm
      simp [hlk] at hcount
      rw [hB2ne k hk, hcount]
      exact hinv.area_count k
  · -- settled
    intro k hkact hkim
    have hk : k ≠ lakeId := fun h => hkact (by rw [h])
    obtain ⟨i, hi⟩ := hkim
    by_cases his : i = s.id
    · subst his
      rw [hA2self] at hi
      exact absurd (Option.some_inj.mp hi).symm hk
    · rw [hA2ne i his] at hi
      have hold := hinv.settled k hkact ⟨i, hi⟩
      unfold HspProp at hold ⊢
      rw [hB2ne k hk]
      obtain ⟨hW, hwit⟩ := hold
      refine ⟨hW, ?_⟩
      rcases hwit with ⟨n, hn, hlt2, hne2⟩ | hb
      · left
        refine ⟨n, hn, hlt2, ?_⟩
        by_cases hns : n = s.id
        · subst hns
          rw [hA2self]
          exact fun h => hk (Option.some_inj.mp h).symm
        · rw [hA2ne n hns]
          exact hne2
      · right
        exact hb
  · -- water: a self-merge can only happen in the dead branch, because a live
    -- no-stale heap never contains an entry for a member of its own lake
    rcases hinv.water with ⟨kd, hkdlt, hkd⟩ | ⟨hWB, hNS⟩
    · left
      refine ⟨kd, by rw [commitBuilder_length, hBM_len]; exact hkdlt, ?_⟩
      intro i
      by_cases hi : i = s.id
      · subst hi
        rw [hA2self]
        intro h
        obtain ⟨j, hj⟩ := hactive
        exact hkd j ((Option.some_inj.mp h) ▸ hj)
      · rw [hA2ne i hi]
        exact hkd i
    · exact absurd hm (hNS lakeId s (popBest_mem hpop))

theorem step_inv_real {otherId : ℕ}
    (hlt : lakeId < builders.length)
    (hactive : ∃ i, assoc.getD i none = some lakeId)
    (hinv : Inv heights adjacent border seaLevel (some lakeId) builders assoc)
    (hpop : popBest (builders.getD lakeId default).shores = some s)
    (hm : assoc.getD s.id none = some otherId)
    (hne : otherId ≠ lakeId) :
    StepGoal heights adjacent border seaLevel lakeId builders assoc s := by
  obtain ⟨hs_h, hs_sea, hs_lt⟩ :=
    hinv.shores_ok _ (getD_mem_of_lt _ _ _ hlt) s (popBest_mem hpop)
  have hsid : s.id < assoc.length := by rw [hinv.hlen]; exact hs_lt
  have hother_lt : otherId < builders.length := hinv.assoc_lt s.id otherId hm
  have hltB1 : lakeId < (removePopped lakeId s builders).length := by
    rw [removePopped_length]
    exact hlt
  have hother_ltB1 : otherId < (removePopped lakeId s builders).length := by
    rw [removePopped_length]
    exact hother_lt
  have hstep1 : (stepState lakeId s builders assoc).1 =
      commitBuilder lakeId s
        (mergeLakes lakeId otherId (removePopped lakeId s builders) assoc).1 := by
    simp only [stepState, mergeStep_some _ hm]
  have hstep2 : (stepState lakeId s builders assoc).2 =
      (mergeLakes lakeId otherId (removePopped lakeId s builders) assoc).2.set s.id
        (some lakeId) := by
    simp only [stepState, mergeStep_some _ hm]
  have hBM := @mergeLakes_fst_getD_keeper lakeId otherId
    (removePopped lakeId s builders) assoc hltB1
  rw [getD_set_ne _ _ _ hne, removePopped_getD_self s hlt,
    removePopped_getD_ne _ _ _ (fun h => hne h.symm)] at hBM
  have hBM_shores :
      ((mergeLakes lakeId otherId (removePopped lakeId s builders) assoc).1.getD
        lakeId default).shores =
      (builders.getD lakeId default).shores.filter (· ≠ s) ++
        (builders.getD otherId default).shores := by
    rw [hBM]
  have hBM_area :
      ((mergeLakes lakeId otherId (removePopped lakeId s builders) assoc).1.getD
        lakeId default).area =
      (builders.getD lakeId default).area +
        ((builders.getD otherId default).area - 1) := by
    rw [hBM]
  have hBM_other :
      (mergeLakes lakeId otherId (removePopped lakeId s builders) assoc).1.getD
        otherId default = default :=
    mergeLakes_fst_getD_other assoc (fun h => hne h.symm) hother_ltB1
  have hBM_len :
      (mergeLakes lakeId otherId (removePopped lakeId s builders) assoc).1.length =
        builders.length := by
    rw [mergeLakes_fst_length, removePopped_length]
  have hBM_ne : ∀ k, k ≠ lakeId → k ≠ otherId →
      ((mergeLakes lakeId otherId (removePopped lakeId s builders) assoc).1.getD
        k default) = builders.getD k default := by
    intro k hk hk2
    rw [mergeLakes_fst_getD_ne _ _ hk hk2, removePopped_getD_ne _ _ _ (Ne.symm hk)]
  have hltBM : lakeId <
      (mergeLakes lakeId otherId (removePopped lakeId s builders) assoc).1.length := by
    rw [hBM_len]
    exact hlt
  have hAM_len :
      (mergeLakes lakeId otherId (removePopped lakeId s builders) assoc).2.length =
        assoc.length :=
    mergeLakes_snd_length _ _ _ _
  have hAM_getD : ∀ i,
      (mergeLakes lakeId otherId (removePopped lakeId s builders) assoc).2.getD i
        none =
      if assoc.getD i none = some otherId then some lakeId
      else assoc.getD i none :=
    mergeLakes_snd_getD _ _ _ _
  have hB2self := @commitBuilder_getD_self lakeId s _ hltBM
  have hB2_water :
      ((commitBuilder lakeId s
        (mergeLakes lakeId otherId (removePopped lakeId s builders) assoc).1).getD
          lakeId default).water_level = s.height := by
    rw [hB2self]
  have hB2_hsp :
      ((commitBuilder lakeId s
        (mergeLakes lakeId otherId (removePopped lakeId s builders) assoc).1).getD
          lakeId default).highest_shore_point = s.id := by
    rw [hB2self]
  have hB2_area :
      ((commitBuilder lakeId s
        (mergeLakes lakeId otherId (removePopped lakeId s builders) assoc).1).getD
          lakeId default).area =
      (builders.getD lakeId default).area +
        ((builders.getD otherId default).area - 1) + 1 := by
    rw [hB2self]
    show ((mergeLakes lakeId otherId (removePopped lakeId s builders) assoc).1.getD
      lakeId default).area + 1 = _
    rw [hBM_area]
  have hB2_shores :
      ((commitBuilder lakeId s
        (mergeLakes lakeId otherId (removePopped lakeId s builders) assoc).1).getD
          lakeId default).shores =
      (builders.getD lakeId default).shores.filter (· ≠ s) ++
        (builders.getD otherId default).shores := by
    rw [hB2self]
    show ((mergeLakes lakeId otherId (removePopped lakeId s builders) assoc).1.getD
      lakeId default).shores = _
    exact hBM_shores
  have hB2_other :
      ((commitBuilder lakeId s
        (mergeLakes lakeId otherId (removePopped lakeId s builders) assoc).1).getD
          otherId default) = default := by
    rw [commitBuilder_getD_ne _ _ _ (Ne.symm hne)]
    exact hBM_other
  have hB2ne : ∀ k, k ≠ lakeId → k ≠ otherId →
      ((commitBuilder lakeId s
        (mergeLakes lakeId otherId (removePopped lakeId s builders) assoc).1).getD
          k default) = builders.getD k default := by
    intro k hk hk2
    rw [commitBuilder_getD_ne _ _ _ (Ne.symm hk)]
    exact hBM_ne k hk hk2
  have hsidAM : s.id <
      (mergeLakes lakeId otherId (removePopped lakeId s builders) assoc).2.length := by
    rw [hAM_len]
    exact hsid
  have hA2self :
      ((mergeLakes lakeId otherId (removePopped lakeId s builders) assoc).2.set s.id
        (some lakeId)).getD s.id none = some lakeId :=
    getD_set_self _ _ _ _ hsidAM
  have hA2ne : ∀ i, i ≠ s.id →
      ((mergeLakes lakeId otherId (removePopped lakeId s builders) assoc).2.set s.id
        (some lakeId)).getD i none =
      if assoc.getD i none = some otherId then some lakeId
      else assoc.getD i none := by
    intro i hi
    rw [getD_set_ne _ _ _ fun h => hi h.symm]
    exact hAM_getD i
  have hbo_pos : 1 ≤ (builders.getD otherId default).area := by
    rw [hinv.area_count otherId]
    exact countP_some_pos hm
  unfold StepGoal
  rw [hstep1, hstep2]
  refine ⟨by rw [commitBuilder_length, hBM_len],
    by rw [List.length_set, hAM_len], hA2self, hB2_water, hB2_hsp, hs_h.symm, ?_⟩
  refine ⟨?_, ?_, ?_, ?_, ?_, ?_, ?_⟩
  · rw [List.length_set, hAM_len]
    exact hinv.hlen
  · -- shores_ok
    intro b hb e he
    rcases List.mem_or_eq_of_mem_set hb with hb1 | rfl
    · rcases List.mem_or_eq_of_mem_set hb1 with hb2 | rfl
      · rcases List.mem_or_eq_of_mem_set hb2 with hb3 | rfl
        · rcases List.mem_or_eq_of_mem_set hb3 with hb4 | rfl
          · exact hinv.shores_ok b hb4 e he
          · exact hinv.shores_ok _ (getD_mem_of_lt _ _ _ hlt) e
              (List.mem_of_mem_filter he)
        · simp [default_lakeBuilder] at he
      · have he2 : e ∈
            (((removePopped lakeId s builders).set otherId default).getD lakeId
              default).shores ++
            ((removePopped lakeId s builders).getD otherId default).shores := he
        rw [getD_set_ne _ _ _ hne, removePopped_getD_self s hlt,
          removePopped_getD_ne _ _ _ (fun h => hne h.symm)] at he2
        have he3 : e ∈ (builders.getD lakeId default).shores.filter (· ≠ s) ++
            (builders.getD otherId default).shores := he2
        rcases List.mem_append.mp he3 with he4 | he4
        · exact hinv.shores_ok _ (getD_mem_of_lt _ _ _ hlt) e
            (List.mem_of_mem_filter he4)
        · exact hinv.shores_ok _ (getD_mem_of_lt _ _ _ hother_lt) e he4
    · have he2 : e ∈
          ((mergeLakes lakeId otherId (removePopped lakeId s builders) assoc).1.getD
            lakeId default).shores := he
      rw [hBM_shores] at he2
      rcases List.mem_append.mp he2 with he4 | he4
      · exact hinv.shores_ok _ (getD_mem_of_lt _ _ _ hlt) e
          (List.mem_of_mem_filter he4)
      · exact hinv.shores_ok _ (getD_mem_of_lt _ _ _ hother_lt) e he4
  · -- assoc_sea
    intro i k hik
    by_cases hi : i = s.id
    · subst hi
      rw [← hs_h]
      exact hs_sea
    · rw [hA2ne i hi] at hik
      by_cases ho : assoc.getD i none = some otherId
      · exact hinv.assoc_sea i otherId ho
      · rw [if_neg ho] at hik
        exact hinv.assoc_sea i k hik
  · -- assoc_lt
    intro i k hik
    rw [commitBuilder_length, hBM_len]
    by_cases hi : i = s.id
    · subst hi
      rw [hA2self] at hik
      rw [← Option.some_inj.mp hik]
      exact hlt
    · rw [hA2ne i hi] at hik
      by_cases ho : assoc.getD i none = some otherId
      · rw [if_pos ho] at hik
        rw [← Option.some_inj.mp hik]
        exact hlt
      · rw [if_neg ho] at hik
        exact hinv.assoc_lt i k hik
  · -- area_count
    intro k
    by_cases hk : k = lakeId
    · have hcount := countP_set_add
        (mergeLakes lakeId otherId (removePopped lakeId s builders) assoc).2 s.id
        (some lakeId) (fun o => decide (o = some lakeId)) hsidAM
      rw [hAM_getD s.id, if_pos hm] at hcount
      simp at hcount
      rw [hk, hB2_area, hcount, mergeLakes_snd, countP_remap_keeper assoc hne,
        ← hinv.area_count lakeId, ← hinv.area_count otherId]
      omega
    · by_cases hk2 : k = otherId
      · have hcount := countP_set_add
          (mergeLakes lakeId otherId (removePopped lakeId s builders) assoc).2 s.id
          (some lakeId) (fun o => decide (o = some otherId)) hsidAM
        rw [hAM_getD s.id, if_pos hm] at hcount
        have hlk : ¬ lakeId = otherId := fun h => hne h.symm
        simp [hlk] at hcount
        rw [hk2, hB2_other, hcount, mergeLakes_snd, countP_remap_other assoc hne]
        rfl
      · have hcount := countP_set_add
          (mergeLakes lakeId otherId (removePopped lakeId s builders) assoc).2 s.id
          (some lakeId) (fun o => decide (o = some k)) hsidAM
        rw [hAM_getD s.id, if_pos hm] at hcount
        have hlk : ¬ lakeId = k := fun h => hk h.symm
        simp [hlk] at hcount
        rw [hB2ne k hk hk2, hcount, mergeLakes_snd, countP_remap_ne assoc hk hk2]
        exact hinv.area_count k
  · -- settled
    intro k hkact hkim
    have hk : k ≠ lakeId := fun h => hkact (by rw [h])
    obtain ⟨i, hi⟩ := hkim
    by_cases his : i = s.id
    · subst his
      rw [hA2self] at hi
      exact absurd (Option.some_inj.mp hi).symm hk
    · rw [hA2ne i his] at hi
      by_cases ho : assoc.getD i none = some otherId
      · rw [if_pos ho] at hi
        exact absurd (Option.some_inj.mp hi).symm hk
      · rw [if_neg ho] at hi
        have hk2 : k ≠ otherId := by
          intro h
          exact ho (h ▸ hi)
        have hold := hinv.settled k hkact ⟨i, hi⟩
        unfold HspProp at hold ⊢
        rw [hB2ne k hk hk2]
        obtain ⟨hW, hwit⟩ := hold
        refine ⟨hW, ?_⟩
        rcases hwit with ⟨n, hn, hlt2, hne2⟩ | hb
        · left
          refine ⟨n, hn, hlt2, ?_⟩
          by_cases hns : n = s.id
          · subst hns
            rw [hA2self]
            exact fun h => hk (Option.some_inj.mp h).symm
          · rw [hA2ne n hns]
            by_cases ho2 : assoc.getD n none = some otherId
            · rw [if_pos ho2]
              exact fun h => hk (Option.some_inj.mp h).symm
            · rw [if_neg ho2]
              exact hne2
        · right
          exact hb
  · -- water: a real merge dissolves `otherId`, creating a dead slot
    rcases hinv.water with ⟨kd, hkdlt, hkd⟩ | _
    · left
      refine ⟨kd, by rw [commitBuilder_length, hBM_len]; exact hkdlt, ?_⟩
      intro i
      by_cases hi : i = s.id
      · subst hi
        rw [hA2self]
        intro h
        obtain ⟨j, hj⟩ := hactive
        exact hkd j ((Option.some_inj.mp h) ▸ hj)
      · rw [hA2ne i hi]
        by_cases ho : assoc.getD i none = some otherId
        · rw [if_pos ho]
          intro h
          obtain ⟨j, hj⟩ := hactive
          exact hkd j ((Option.some_inj.mp h) ▸ hj)
        · rw [if_neg ho]
          exact hkd i
    · left
      refine ⟨otherId, by rw [commitBuilder_length, hBM_len]; exact hother_lt, ?_⟩
      intro i
      by_cases hi : i = s.id
      · subst hi
        rw [hA2self]
        exact fun h => hne (Option.some_inj.mp h).symm
      · rw [hA2ne i hi]
        by_cases ho : assoc.getD i none = some otherId
        · rw [if_pos ho]
          exact fun h => hne (Option.some_inj.mp h).symm
        · rw [if_neg ho]
          exact ho

theorem stepState_inv
    (hlt : lakeId < builders.length)
    (hactive : ∃ i, assoc.getD i none = some lakeId)
    (hinv : Inv heights adjacent border seaLevel (some lakeId) builders assoc)
    (hpop : popBest (builders.getD lakeId default).shores = some s) :
    StepGoal heights adjacent border seaLevel lakeId builders assoc s := by
  cases hm : assoc.getD s.id none with
  | none => exact step_inv_none hlt hactive hinv hpop hm
  | some otherId =>
    by_cases hcase : otherId = lakeId
    · exact step_inv_self hlt hactive hinv hpop (hcase ▸ hm)
    · exact step_inv_real hlt hactive hinv hpop hm hcase

theorem addPushes_inv
    (hinv : Inv heights adjacent border seaLevel (some lakeId) builders assoc)
    (hlt : lakeId < builders.length)
    (pushes : List ShorePoint)
    (hpush : ∀ e ∈ pushes, e.height = heights.getD e.id 0 ∧ seaLevel < e.height ∧
      e.id < heights.length ∧ (builders.getD lakeId default).water_level ≤ e.height ∧
      assoc.getD e.id none ≠ some lakeId) :
    Inv heights adjacent border seaLevel (some lakeId)
      (addPushes lakeId pushes builders) assoc := by
  refine ⟨hinv.hlen, ?_, hinv.assoc_sea, ?_, ?_, ?_, ?_⟩
  · intro b hb e he
    rcases List.mem_or_eq_of_mem_set hb with hb1 | rfl
    · exact hinv.shores_ok b hb1 e he
    · have he2 : e ∈ (builders.getD lakeId default).shores ++ pushes := he
      rcases List.mem_append.mp he2 with he3 | he3
      · exact hinv.shores_ok _ (getD_mem_of_lt _ _ _ hlt) e he3
      · obtain ⟨h1, h2, h3, _, _⟩ := hpush e he3
        exact ⟨h1, h2, h3⟩
  · intro i k hik
    rw [addPushes_length]
    exact hinv.assoc_lt i k hik
  · intro k
    by_cases hk : k = lakeId
    · subst hk
      rw [addPushes_getD_self pushes hlt]
      show (builders.getD k default).area = _
      exact hinv.area_count k
    · rw [addPushes_getD_ne _ _ _ (Ne.symm hk)]
      exact hinv.area_count k
  · intro k hkact hkim
    have hk : k ≠ lakeId := fun h => hkact (by rw [h])
    have hold := hinv.settled k hkact hkim
    unfold HspProp at hold ⊢
    rw [addPushes_getD_ne _ _ _ (Ne.symm hk)]
    exact hold
  · rcases hinv.water with ⟨kd, hkdlt, hkd⟩ | ⟨hWB, hNS⟩
    · left
      exact ⟨kd, by rw [addPushes_length]; exact hkdlt, hkd⟩
    · right
      refine ⟨⟨?_, ?_⟩, ?_⟩
      · intro k e he
        by_cases hk : k = lakeId
        · subst hk
          rw [addPushes_getD_self pushes hlt] at he ⊢
          have he2 : e ∈ (builders.getD k default).shores ++ pushes := he
          show (builders.getD k default).water_level ≤ e.height
          rcases List.mem_append.mp he2 with he3 | he3
          · exact hWB.1 k e he3
          · exact (hpush e he3).2.2.2.1
        · rw [addPushes_getD_ne _ _ _ (Ne.symm hk)] at he ⊢
          exact hWB.1 k e he
      · intro i k hik
        by_cases hk : k = lakeId
        · subst hk
          rw [addPushes_getD_self pushes hlt]
          show _ ≤ (builders.getD k default).water_level
          exact hWB.2 i k hik
        · rw [addPushes_getD_ne _ _ _ (Ne.symm hk)]
          exact hWB.2 i k hik
      · intro k e he
        by_cases hk : k = lakeId
        · subst hk
          rw [addPushes_getD_self pushes hlt] at he
          have he2 : e ∈ (builders.getD k default).shores ++ pushes := he
          rcases List.mem_append.mp he2 with he3 | he3
          · exact hNS k e he3
          · exact (hpush e he3).2.2.2.2
        · rw [addPushes_getD_ne _ _ _ (Ne.symm hk)] at he
          exact hNS k e he

theorem expandLake_inv
    (hadj : ∀ l ∈ adjacent, ∀ n ∈ l, n < heights.length) :
    ∀ (fuel lakeId : ℕ) (builders : List LakeBuilder) (assoc : List (Option ℕ))
      (st : List LakeBuilder × List (Option ℕ)),
      lakeId < builders.length →
      (∃ i, assoc.getD i none = some lakeId) →
      Inv heights adjacent border seaLevel (some lakeId) builders assoc →
      expandLake heights adjacent border fuel lakeId builders assoc = some st →
      builders.length = st.1.length ∧ assoc.length = st.2.length ∧
      (∃ i, st.2.getD i none = some lakeId) ∧
      Inv heights adjacent border seaLevel (some lakeId) st.1 st.2 ∧
      HspProp heights adjacent border lakeId st.1 st.2 := by
  intro fuel
  induction fuel with
  | zero =>
    intro lakeId builders assoc st _ _ _ hrun
    simp [expandLake] at hrun
  | succ fuel ih =>
    intro lakeId builders assoc st hlt hactive hinv hrun
    cases hpop : popBest (builders.getD lakeId default).shores with
    | none =>
      rw [expandLake, hpop] at hrun
      exact absurd hrun (by simp)
    | some s =>
      simp only [expandLake, hpop] at hrun
      have hsg := stepState_inv hlt hactive hinv hpop
      unfold StepGoal at hsg
      obtain ⟨hlen1, hlen2, hA2sid, hwater, hhsp, hH, hinv2⟩ := hsg
      obtain ⟨hs_h, hs_sea, hs_lt⟩ :=
        hinv.shores_ok _ (getD_mem_of_lt _ _ _ hlt) s (popBest_mem hpop)
      by_cases hc : canContinue heights adjacent border lakeId s
        (stepState lakeId s builders assoc).2
      · rw [if_pos hc] at hrun
        have hltB2 : lakeId < (stepState lakeId s builders assoc).1.length := by
          rw [hlen1]
          exact hlt
        have hpush : ∀ e ∈ pushList heights adjacent lakeId s
            (stepState lakeId s builders assoc).2,
            e.height = heights.getD e.id 0 ∧ seaLevel < e.height ∧
            e.id < heights.length ∧
            ((stepState lakeId s builders assoc).1.getD lakeId
              default).water_level ≤ e.height ∧
            (stepState lakeId s builders assoc).2.getD e.id none ≠ some lakeId := by
          intro e he
          obtain ⟨n, hn, hfn⟩ := List.mem_filterMap.mp he
          by_cases hcond : (stepState lakeId s builders assoc).2.getD n none =
              some lakeId
          · rw [if_pos hcond] at hfn
            exact absurd hfn (by simp)
          · rw [if_neg hcond] at hfn
            have he_eq : e = ⟨n, heights.getD n 0⟩ := (Option.some_inj.mp hfn).symm
            subst he_eq
            have hsh : s.height ≤ heights.getD n 0 := by
              rcases hc.1 n hn with h | h
              · exact h
              · exact absurd h hcond
            exact ⟨rfl, lt_of_lt_of_le hs_sea hsh, adj_getD_bound hadj s.id n hn,
              by rw [hwater]; exact hsh, hcond⟩
        have hinv3 := addPushes_inv hinv2 hltB2 _ hpush
        have hres := ih lakeId _ _ st
          (by rw [addPushes_length]; exact hltB2) ⟨s.id, hA2sid⟩ hinv3 hrun
        obtain ⟨hl1, hl2, him, hi4, hh5⟩ := hres
        refine ⟨?_, ?_, him, hi4, hh5⟩
        · rw [← hl1, addPushes_length, hlen1]
        · rw [← hl2, hlen2]
      · rw [if_neg hc] at hrun
        have hst : st = stepState lakeId s builders assoc :=
          (Option.some_inj.mp hrun).symm
        subst hst
        refine ⟨hlen1.symm, hlen2.symm, ⟨s.id, hA2sid⟩, hinv2, ?_⟩
        unfold HspProp
        rw [hhsp, hwater]
        refine ⟨hH, ?_⟩
        unfold canContinue at hc
        by_cases hA : ∀ n ∈ adjacent.getD s.id [],
            s.height ≤ heights.getD n 0 ∨
              (stepState lakeId s builders assoc).2.getD n none = some lakeId
        · right
          by_contra hB
          exact hc ⟨hA, hB⟩
        · left
          push_neg at hA
          obtain ⟨n, hn, hle, hne⟩ := hA
          exact ⟨n, hn, hle, hne⟩

theorem inv_settle
    (hinv : Inv heights adjacent border seaLevel (some lakeId) builders assoc)
    (hh : HspProp heights adjacent border lakeId builders assoc) :
    Inv heights adjacent border seaLevel none builders assoc := by
  refine ⟨hinv.hlen, hinv.shores_ok, hinv.assoc_sea, hinv.assoc_lt,
    hinv.area_count, ?_, hinv.water⟩
  intro k _ hkim
  by_cases hk : k = lakeId
  · rw [hk]
    exact hh
  · exact hinv.settled k (by simp [hk]) hkim

theorem seedStep_preserves
    (hadj : ∀ l ∈ adjacent, ∀ n ∈ l, n < heights.length)
    {p : ℕ × ℚ} (hp1 : p.1 < heights.length) (hp2 : heights.getD p.1 0 = p.2)
    {st0 st1 : List LakeBuilder × List (Option ℕ)}
    (hinv : Inv heights adjacent border seaLevel none st0.1 st0.2)
    (hrun : seedStep heights adjacent border seaLevel (some st0) p = some st1) :
    Inv heights adjacent border seaLevel none st1.1 st1.2 := by
  have hrun1 : (if seaLevel < p.2 ∧ st0.2.getD p.1 none = none ∧
      ∀ n ∈ adjacent.getD p.1 [], p.2 < heights.getD n 0 then
        expandLake heights adjacent border
          (heights.length * heights.length + 2 * heights.length + 2)
          ((st0.1 ++ [(⟨p.2, 1, p.1,
            (adjacent.getD p.1 []).map fun n => ⟨n, heights.getD n 0⟩⟩ :
              LakeBuilder)]).length - 1)
          (st0.1 ++ [(⟨p.2, 1, p.1,
            (adjacent.getD p.1 []).map fun n => ⟨n, heights.getD n 0⟩⟩ :
              LakeBuilder)])
          (st0.2.set p.1 (some ((st0.1 ++ [(⟨p.2, 1, p.1,
            (adjacent.getD p.1 []).map fun n => ⟨n, heights.getD n 0⟩⟩ :
              LakeBuilder)]).length - 1)))
      else some st0) = some st1 := hrun
  by_cases hcond : seaLevel < p.2 ∧ st0.2.getD p.1 none = none ∧
      ∀ n ∈ adjacent.getD p.1 [], p.2 < heights.getD n 0
  · rw [if_pos hcond] at hrun1
    have hid : (st0.1 ++ [(⟨p.2, 1, p.1,
        (adjacent.getD p.1 []).map fun n => ⟨n, heights.getD n 0⟩⟩ :
          LakeBuilder)]).length - 1 = st0.1.length := by
      simp
    rw [hid] at hrun1
    obtain ⟨hsea, hnone, hmin⟩ := hcond
    have hplen : p.1 < st0.2.length := by rw [hinv.hlen]; exact hp1
    have hnotself : p.1 ∉ adjacent.getD p.1 [] := by
      intro hmem
      have := hmin p.1 hmem
      rw [hp2] at this
      exact lt_irrefl _ this
    have happend_self : (st0.1 ++ [(⟨p.2, 1, p.1,
        (adjacent.getD p.1 []).map fun n => ⟨n, heights.getD n 0⟩⟩ :
          LakeBuilder)]).getD st0.1.length default =
        ⟨p.2, 1, p.1, (adjacent.getD p.1 []).map fun n => ⟨n, heights.getD n 0⟩⟩ := by
      rw [List.getD_append_right _ _ _ _ (le_refl _)]
      simp
    have happend_ne : ∀ k, k ≠ st0.1.length →
        (st0.1 ++ [(⟨p.2, 1, p.1,
          (adjacent.getD p.1 []).map fun n => ⟨n, heights.getD n 0⟩⟩ :
            LakeBuilder)]).getD k default = st0.1.getD k default := by
      intro k hk
      rcases Nat.lt_or_ge k st0.1.length with h | h
      · exact List.getD_append _ _ _ _ h
      · have h2 : st0.1.length < k := lt_of_le_of_ne h (Ne.symm hk)
        rw [List.getD_eq_default _ _ (by simpa using h2),
          List.getD_eq_default _ _ h]
    have hA'self : (st0.2.set p.1 (some st0.1.length)).getD p.1 none =
        some st0.1.length := getD_set_self _ _ _ _ hplen
    have hA'ne : ∀ i, i ≠ p.1 →
        (st0.2.set p.1 (some st0.1.length)).getD i none = st0.2.getD i none := by
      intro i hi
      exact getD_set_ne _ _ _ fun h => hi h.symm
    have hseedinv : Inv heights adjacent border seaLevel (some st0.1.length)
        (st0.1 ++ [⟨p.2, 1, p.1,
          (adjacent.getD p.1 []).map fun n => ⟨n, heights.getD n 0⟩⟩])
        (st0.2.set p.1 (some st0.1.length)) := by
      refine ⟨?_, ?_, ?_, ?_, ?_, ?_, ?_⟩
      · rw [List.length_set]
        exact hinv.hlen
      · -- shores_ok
        intro b hb e he
        rcases List.mem_append.mp hb with hb1 | hb1
        · exact hinv.shores_ok b hb1 e he
        · have hb2 : b = ⟨p.2, 1, p.1,
              (adjacent.getD p.1 []).map fun n => ⟨n, heights.getD n 0⟩⟩ := by
            simpa using hb1
          subst hb2
          obtain ⟨n, hn, rfl⟩ := List.mem_map.mp he
          exact ⟨rfl, lt_trans hsea (hmin n hn), adj_getD_bound hadj p.1 n hn⟩
      · -- assoc_sea
        intro i k hik
        by_cases hi : i = p.1
        · subst hi
          rw [hp2]
          exact hsea
        · rw [hA'ne i hi] at hik
          exact hinv.assoc_sea i k hik
      · -- assoc_lt
        intro i k hik
        rw [List.length_append]
        by_cases hi : i = p.1
        · subst hi
          rw [hA'self] at hik
          rw [← Option.some_inj.mp hik]
          simp
        · rw [hA'ne i hi] at hik
          have := hinv.assoc_lt i k hik
          simp
          omega
      · -- area_count
        intro k
        by_cases hk : k = st0.1.length
        · subst hk
          have hcount := countP_set_add st0.2 p.1 (some st0.1.length)
            (fun o => decide (o = some st0.1.length)) hplen
          rw [hnone] at hcount
          simp at hcount
          have hzero : (st0.2.countP fun o => decide (o = some st0.1.length)) = 0 := by
            rw [← hinv.area_count st0.1.length,
              List.getD_eq_default _ _ (le_refl _)]
            rfl
          rw [happend_self, hcount, hzero]
        · have hcount := countP_set_add st0.2 p.1 (some st0.1.length)
            (fun o => decide (o = some k)) hplen
          rw [hnone] at hcount
          have hlk : ¬ st0.1.length = k := fun h => hk h.symm
          simp [hlk] at hcount
          rw [happend_ne k hk, hcount]
          exact hinv.area_count k
      · -- settled
        intro k hkact hkim
        have hk : k ≠ st0.1.length := fun h => hkact (by rw [h])
        obtain ⟨i, hi⟩ := hkim
        by_cases his : i = p.1
        · subst his
          rw [hA'self] at hi
          exact absurd (Option.some_inj.mp hi).symm hk
        · rw [hA'ne i his] at hi
          have hold := hinv.settled k (by simp) ⟨i, hi⟩
          unfold HspProp at hold ⊢
          rw [happend_ne k hk]
          obtain ⟨hW, hwit⟩ := hold
          refine ⟨hW, ?_⟩
          rcases hwit with ⟨n, hn, hlt2, hne2⟩ | hb
          · left
            refine ⟨n, hn, hlt2, ?_⟩
            by_cases hns : n = p.1
            · subst hns
              rw [hA'self]
              exact fun h => hk (Option.some_inj.mp h).symm
            · rw [hA'ne n hns]
              exact hne2
          · right
            exact hb
      · -- water
        rcases hinv.water with ⟨kd, hkdlt, hkd⟩ | ⟨hWB, hNS⟩
        · left
          refine ⟨kd, by rw [List.length_append]; omega, ?_⟩
          intro i
          by_cases hi : i = p.1
          · subst hi
            rw [hA'self]
            intro h
            have : st0.1.length = kd := Option.some_inj.mp h
            omega
          · rw [hA'ne i hi]
            exact hkd i
        · right
          refine ⟨⟨?_, ?_⟩, ?_⟩
          · intro k e he
            by_cases hk : k = st0.1.length
            · subst hk
              rw [happend_self] at he ⊢
              obtain ⟨n, hn, rfl⟩ := List.mem_map.mp he
              show p.2 ≤ heights.getD n 0
              exact (hmin n hn).le
            · rw [happend_ne k hk] at he ⊢
              exact hWB.1 k e he
          · intro i k hik
            by_cases hi : i = p.1
            · subst hi
              rw [hA'self] at hik
              rw [← Option.some_inj.mp hik, happend_self, hp2]
            · rw [hA'ne i hi] at hik
              by_cases hk : k = st0.1.length
              · subst hk
                have := hinv.assoc_lt i _ hik
                omega
              · rw [happend_ne k hk]
                exact hWB.2 i k hik
          · intro k e he
            by_cases hk : k = st0.1.length
            · subst hk
              rw [happend_self] at he
              obtain ⟨n, hn, rfl⟩ := List.mem_map.mp he
              have hns : n ≠ p.1 := fun h => hnotself (h ▸ hn)
              show (st0.2.set p.1 (some st0.1.length)).getD n none ≠
                some st0.1.length
              rw [hA'ne n hns]
              intro h
              have := hinv.assoc_lt n _ h
              omega
            · rw [happend_ne k hk] at he
              by_cases hei : e.id = p.1
              · rw [hei, hA'self]
                exact fun h => hk (Option.some_inj.mp h).symm
              · rw [hA'ne e.id hei]
                exact hNS k e he
    have hNlt : st0.1.length < (st0.1 ++ [(⟨p.2, 1, p.1,
        (adjacent.getD p.1 []).map fun n => ⟨n, heights.getD n 0⟩⟩ :
          LakeBuilder)]).length := by
      simp
    obtain ⟨_, _, _, hinv1, hhsp1⟩ := expandLake_inv hadj _ st0.1.length _ _ st1
      hNlt ⟨p.1, hA'self⟩ hseedinv hrun1
    exact inv_settle hinv1 hhsp1
  · rw [if_neg hcond] at hrun1
    rw [← Option.some_inj.mp hrun1]
    exact hinv

theorem foldl_seedStep_none :
    ∀ pairs : List (ℕ × ℚ),
      pairs.foldl (seedStep heights adjacent border seaLevel) none = none := by
  intro pairs
  induction pairs with
  | nil => rfl
  | cons p rest ih =>
    rw [List.foldl_cons]
    exact ih

theorem seedFold_inv
    (hadj : ∀ l ∈ adjacent, ∀ n ∈ l, n < heights.length) :
    ∀ (pairs : List (ℕ × ℚ)) (st0 st1 : List LakeBuilder × List (Option ℕ)),
      (∀ p ∈ pairs, p.1 < heights.length ∧ heights.getD p.1 0 = p.2) →
      Inv heights adjacent border seaLevel none st0.1 st0.2 →
      pairs.foldl (seedStep heights adjacent border seaLevel) (some st0) =
        some st1 →
      Inv heights adjacent border seaLevel none st1.1 st1.2 := by
  intro pairs
  induction pairs with
  | nil =>
    intro st0 st1 _ hinv hrun
    rw [← Option.some_inj.mp hrun]
    exact hinv
  | cons p rest ih =>
    intro st0 st1 hspec hinv hrun
    rw [List.foldl_cons] at hrun
    cases hs1 : seedStep heights adjacent border seaLevel (some st0) p with
    | none =>
      rw [hs1, foldl_seedStep_none] at hrun
      exact absurd hrun (by simp)
    | some stm =>
      rw [hs1] at hrun
      have hp := hspec p (List.mem_cons_self p rest)
      exact ih stm st1 (fun q hq => hspec q (List.mem_cons_of_mem p hq))
        (seedStep_preserves hadj hp.1 hp.2 hinv hs1) hrun

theorem generateLakesBuilders_inv
    (hadj : ∀ l ∈ adjacent, ∀ n ∈ l, n < heights.length)
    {builders : List LakeBuilder} {assoc : List (Option ℕ)}
    (hrun : generateLakesBuilders heights adjacent border seaLevel =
      some (builders, assoc)) :
    Inv heights adjacent border seaLevel none builders assoc := by
  have hinv0 : Inv heights adjacent border seaLevel none
      ((([] : List LakeBuilder),
        List.replicate heights.length (none : Option ℕ))).1
      ((([] : List LakeBuilder),
        List.replicate heights.length (none : Option ℕ))).2 := by
    refine ⟨by simp, ?_, ?_, ?_, ?_, ?_, ?_⟩
    · intro b hb
      exact absurd hb (List.not_mem_nil b)
    · intro i k hik
      rw [getD_replicate_none] at hik
      exact absurd hik (by simp)
    · intro i k hik
      rw [getD_replicate_none] at hik
      exact absurd hik (by simp)
    · intro k
      show (0 : ℕ) = List.countP _ _
      rw [eq_comm, List.countP_eq_zero]
      intro o ho
      have : o = none := List.eq_of_mem_replicate ho
      simp [this]
    · intro k _ hkim
      obtain ⟨i, hi⟩ := hkim
      rw [getD_replicate_none] at hi
      exact absurd hi (by simp)
    · right
      constructor
      · constructor
        · intro k e he
          exact absurd he (List.not_mem_nil e)
        · intro i k hik
          rw [getD_replicate_none] at hik
          exact absurd hik (by simp)
      · intro k e he
        exact absurd he (List.not_mem_nil e)
  exact seedFold_inv hadj heights.enum (_, _) (builders, assoc)
    (fun q hq => enum_spec heights 0 q hq) hinv0 hrun

end StepPreservation

/-! ## C4, C5, C6, C10: final claim theorems about the lake builder -/

/-- C5: after `generate_lakes` returns, every cell at or below sea level is
unassociated: if `generateLakes` succeeds and `heights.getD i 0 ≤ seaLevel`, then
the association map maps `i` to `none`. -/
theorem lake_cells_above_sea (heights : List ℚ) (adjacent : List (List ℕ))
    (border : List Bool) (seaLevel : ℚ)
    (hadj : ∀ l ∈ adjacent, ∀ n ∈ l, n < heights.length)
    {lakes : List Lake} {assoc : List (Option ℕ)}
    (hrun : generateLakes heights adjacent border seaLevel = some (lakes, assoc))
    (i : ℕ) (hi : heights.getD i 0 ≤ seaLevel) :
    assoc.getD i none = none := by
  unfold generateLakes at hrun
  cases hb : generateLakesBuilders heights adjacent border seaLevel with
  | none =>
    rw [hb] at hrun
    exact absurd hrun (by simp)
  | some st =>
    rw [hb] at hrun
    simp only [Option.some_bind] at hrun
    cases hp : publishLakes st.1 st.2 with
    | none =>
      rw [hp] at hrun
      exact absurd hrun (by simp)
    | some ls =>
      rw [hp] at hrun
      simp only [Option.map_some', Option.some_inj, Prod.mk.injEq] at hrun
      obtain ⟨st1, st2⟩ := st
      have hinv := generateLakesBuilders_inv hadj hb
      rw [← hrun.2]
      cases hA : st2.getD i none with
      | none => rfl
      | some k =>
        have := hinv.assoc_sea i k hA
        exact absurd hi (not_le.mpr this)

theorem lake_cells_above_sea_witness :
    (∀ l ∈ ([[1], [0, 2], [1, 3], [2]] : List (List ℕ)), ∀ n ∈ l,
      n < ([-1, 2, 1, 3] : List ℚ).length) ∧
    generateLakes [-1, 2, 1, 3] [[1], [0, 2], [1, 3], [2]]
        [true, false, false, true] 0 =
      some ([⟨2, 2, 1, 0⟩, ⟨2, 2, 1, 0⟩], [none, some 0, some 0, none]) ∧
    ([-1, 2, 1, 3] : List ℚ).getD 0 0 ≤ 0 ∧
    ([none, some 0, some 0, none] : List (Option ℕ)).getD 0 none = none :=
  ⟨by decide, by decide, by decide,
    @lake_cells_above_sea [-1, 2, 1, 3] [[1], [0, 2], [1, 3], [2]]
      [true, false, false, true] 0 (by decide) [⟨2, 2, 1, 0⟩, ⟨2, 2, 1, 0⟩]
      [none, some 0, some 0, none] (by decide) 0 (by decide)⟩

/-- C6 (amended): after the builder phase of `generate_lakes`, every lake `k` in
the image of the association map satisfies the spill-point property: its
`highest_shore_point` has height equal to the water level, and either has a
strictly lower neighbour outside the lake or itself lies on the map border (the
border condition is on the spill point, not on a neighbour as claimed). -/
theorem lake_spill_point (heights : List ℚ) (adjacent : List (List ℕ))
    (border : List Bool) (seaLevel : ℚ)
    (hadj : ∀ l ∈ adjacent, ∀ n ∈ l, n < heights.length)
    {builders : List LakeBuilder} {assoc : List (Option ℕ)}
    (hrun : generateLakesBuilders heights adjacent border seaLevel =
      some (builders, assoc))
    (k : ℕ) (hk : ∃ i, assoc.getD i none = some k) :
    HspProp heights adjacent border k builders assoc :=
  (generateLakesBuilders_inv hadj hrun).settled k (by simp) hk

theorem lake_spill_point_witness :
    (∀ l ∈ ([[1], [0, 2], [1, 3], [2]] : List (List ℕ)), ∀ n ∈ l,
      n < ([2, 1, 2, 5] : List ℚ).length) ∧
    generateLakesBuilders [2, 1, 2, 5] [[1], [0, 2], [1, 3], [2]]
        [true, false, false, true] 0 =
      some ([⟨2, 3, 0, [⟨3, 5⟩]⟩], [some 0, some 0, some 0, none]) ∧
    ([some 0, some 0, some 0, none] : List (Option ℕ)).getD 0 none = some 0 ∧
    HspProp [2, 1, 2, 5] [[1], [0, 2], [1, 3], [2]] [true, false, false, true] 0
      [⟨2, 3, 0, [⟨3, 5⟩]⟩] [some 0, some 0, some 0, none] :=
  ⟨by decide, by decide, by decide,
    @lake_spill_point [2, 1, 2, 5] [[1], [0, 2], [1, 3], [2]]
      [true, false, false, true] 0 (by decide) [⟨2, 3, 0, [⟨3, 5⟩]⟩]
      [some 0, some 0, some 0, none] (by decide) 0 ⟨0, by decide⟩⟩

/-- C10: after the builder phase of `generate_lakes`, every builder slot's recorded
area equals the number of cells associated to it. -/
theorem lake_area_matches_member_count (heights : List ℚ)
    (adjacent : List (List ℕ)) (border : List Bool) (seaLevel : ℚ)
    (hadj : ∀ l ∈ adjacent, ∀ n ∈ l, n < heights.length)
    {builders : List LakeBuilder} {assoc : List (Option ℕ)}
    (hrun : generateLakesBuilders heights adjacent border seaLevel =
      some (builders, assoc))
    (k : ℕ) :
    (builders.getD k default).area =
      assoc.countP fun o => decide (o = some k) :=
  (generateLakesBuilders_inv hadj hrun).area_count k

theorem lake_area_matches_member_count_witness :
    (∀ l ∈ ([[1], [0, 2], [1]] : List (List ℕ)), ∀ n ∈ l,
      n < ([3, 1, 4] : List ℚ).length) ∧
    generateLakesBuilders [3, 1, 4] [[1], [0, 2], [1]] [true, false, true] 0 =
      some ([⟨3, 2, 0, [⟨2, 4⟩]⟩], [some 0, some 0, none]) ∧
    (([⟨3, 2, 0, [⟨2, 4⟩]⟩] : List LakeBuilder).getD 0 default).area =
      ([some 0, some 0, none] : List (Option ℕ)).countP
        fun o => decide (o = some 0) :=
  ⟨by decide, by decide,
    @lake_area_matches_member_count [3, 1, 4] [[1], [0, 2], [1]]
      [true, false, true] 0 (by decide) [⟨3, 2, 0, [⟨2, 4⟩]⟩]
      [some 0, some 0, none] (by decide) 0⟩

/-- C4 (amended): if after the builder phase every builder slot is still live
(some cell points at it, i.e. no merge has dissolved a lake), then every
associated cell's height is at most its lake's final water level.  The unrestricted
claim is refuted elsewhere by an eleven-cell mesh with merges. -/
theorem lake_water_level_bound (heights : List ℚ) (adjacent : List (List ℕ))
    (border : List Bool) (seaLevel : ℚ)
    (hadj : ∀ l ∈ adjacent, ∀ n ∈ l, n < heights.length)
    {builders : List LakeBuilder} {assoc : List (Option ℕ)}
    (hrun : generateLakesBuilders heights adjacent border seaLevel =
      some (builders, assoc))
    (hlive : ∀ k, k < builders.length → ∃ i, assoc.getD i none = some k)
    (i k : ℕ) (hik : assoc.getD i none = some k) :
    heights.getD i 0 ≤ (builders.getD k default).water_level := by
  have hinv := generateLakesBuilders_inv hadj hrun
  rcases hinv.water with ⟨kd, hkdlt, hkd⟩ | ⟨hWB, _⟩
  · obtain ⟨j, hj⟩ := hlive kd hkdlt
    exact absurd hj (hkd j)
  · exact hWB.2 i k hik

theorem lake_water_level_bound_witness :
    (∀ l ∈ ([[1], [0, 2], [1]] : List (List ℕ)), ∀ n ∈ l,
      n < ([2, 1, 2] : List ℚ).length) ∧
    generateLakesBuilders [2, 1, 2] [[1], [0, 2], [1]] [true, false, true] 0 =
      some ([⟨2, 2, 2, [⟨0, 2⟩]⟩], [none, some 0, some 0]) ∧
    (∀ k, k < ([⟨2, 2, 2, [⟨0, 2⟩]⟩] : List LakeBuilder).length →
      ∃ i, ([none, some 0, some 0] : List (Option ℕ)).getD i none = some k) ∧
    ([none, some 0, some 0] : List (Option ℕ)).getD 1 none = some 0 ∧
    ([2, 1, 2] : List ℚ).getD 1 0 ≤
      (([⟨2, 2, 2, [⟨0, 2⟩]⟩] : List LakeBuilder).getD 0 default).water_level :=
  ⟨by decide, by decide,
    by
      intro k hk
      have hk0 : k = 0 := Nat.lt_one_iff.mp (by simpa using hk)
      subst hk0
      exact ⟨1, by decide⟩,
    by decide,
    @lake_water_level_bound [2, 1, 2] [[1], [0, 2], [1]] [true, false, true] 0
      (by decide) [⟨2, 2, 2, [⟨0, 2⟩]⟩] [none, some 0, some 0] (by decide)
      (by
        intro k hk
        have hk0 : k = 0 := Nat.lt_one_iff.mp (by simpa using hk)
        subst hk0
        exact ⟨1, by decide⟩)
      1 0 (by decide)⟩

end TerrainGen
